import Mathlib

/-!
Verification of the scope-aware rebinding resolver of `fix_remaining_redeclarations.py`
(the batch tool that renames repeated assignments to one identifier inside a
function-scoped region of Elixir source text).

The embedding translates the Python functions into executable Lean functions over
`List Char` (one line) and `List (List Char)` (the lines of a region).  The Python
regular expressions are anchored line patterns over identifier names; each one is
translated into the deterministic scanning function it denotes for a word-character
identifier:

* `re.search(rf'^\s*{var}\s*=(?!=)', line)`      → `isAssignSite`
* `re.search(rf'^\s*{var}\s*=', line)`            → `isAssignHead`
* `re.sub(rf'^(\s*){var}(\s*=)', rf'\1{new}\2')`  → `renameAssign`
* `re.sub(rf'\b{name}\b', new, line)`             → `subWord` (replace every maximal
  word-character run equal to `name`; a `\b`-delimited match of an all-word-char
  pattern is exactly a maximal word run equal to it)
* the trailing-reference patterns                  → `isTrailingRef`
* `re.finditer(function_pattern, content, DOTALL)` → `locateRegions`
* `content.replace(old, new)`                      → `replaceAll`
-/

/-- Python `\w` for the ASCII source texts the tool processes. -/
def isWordChar (c : Char) : Bool := c.isAlphanum || c == '_'

/-- Python `\s` for the ASCII source texts the tool processes. -/
def isWs (c : Char) : Bool :=
  c == ' ' || c == '\t' || c == '\n' || c == '\r' || c == '\x0b' || c == '\x0c'

/-- Abbreviation turning a string literal into the character list it denotes. -/
def s2l (s : String) : List Char := s.toList

/-- An identifier: nonempty, all word characters (the shape of every variable name
and replacement name the tool substitutes). -/
def Ident (s : List Char) : Prop := s ≠ [] ∧ ∀ c ∈ s, isWordChar c = true

instance : DecidablePred Ident := fun s => by
  unfold Ident; infer_instance

/-- `dropStart? p l` is `some r` iff `l = p ++ r`: matching a literal pattern at the
start of the text, the deterministic core of each anchored regex. -/
def dropStart? : List Char → List Char → Option (List Char)
  | [], l => some l
  | _ :: _, [] => none
  | p :: ps, c :: cs => if p = c then dropStart? ps cs else none

theorem dropStart?_eq_some {p l r : List Char} :
    dropStart? p l = some r ↔ l = p ++ r := by
  induction p generalizing l with
  | nil => simp [dropStart?]
  | cons a ps ih =>
    cases l with
    | nil => simp [dropStart?]
    | cons c cs =>
      by_cases h : a = c
      · subst h
        simp [dropStart?, ih]
      · simp only [dropStart?, if_neg h]
        constructor
        · intro hx; exact absurd hx (by simp)
        · intro hx
          injection hx with h1 _
          exact absurd h1.symm h

theorem dropStart?_self_append (p r : List Char) : dropStart? p (p ++ r) = some r :=
  dropStart?_eq_some.mpr rfl

/-- Translation of `re.search(rf'^\s*{var}\s*=', line)`: leading whitespace, the
identifier, optional whitespace, then `=` (no lookahead).  Used as the skip test
before reference substitution. -/
def startsWithEq : List Char → Bool
  | c :: _ => c == '='
  | [] => false

def isAssignHead (var l : List Char) : Bool :=
  match dropStart? var (l.dropWhile isWs) with
  | some r => startsWithEq (r.dropWhile isWs)
  | none => false

/-- Translation of `re.search(rf'^\s*{var}\s*=(?!=)', line)`: as `isAssignHead`
but the `=` must not be followed by another `=`.  This is the Assignment Scanner's
site test. -/
def startsWithSingleEq : List Char → Bool
  | c :: rest =>
    c == '=' &&
    (match rest with
     | c2 :: _ => !(c2 == '=')
     | [] => true)
  | [] => false

def isAssignSite (var l : List Char) : Bool :=
  match dropStart? var (l.dropWhile isWs) with
  | some r => startsWithSingleEq (r.dropWhile isWs)
  | none => false

/-- The Assignment Scanner (lines 222-226 of the script): the indices of the lines
on which `var` is (re)bound, in textual order. -/
def assignmentSites (var : List Char) (lines : List (List Char)) : List Nat :=
  (List.range lines.length).filter (fun i => isAssignSite var (lines.getD i []))

/-- Translation of `re.sub(rf'^(\s*){var}(\s*=)', rf'\1{new}\2', line)`: rewrite the
leading binding occurrence of `var` to `new`, keeping both whitespace groups and the
whole right-hand side; leave the line unchanged when the pattern does not match. -/
def renameAssign (var new l : List Char) : List Char :=
  let w0 := l.takeWhile isWs
  let r0 := l.dropWhile isWs
  match dropStart? var r0 with
  | none => l
  | some r1 =>
    let w1 := r1.takeWhile isWs
    match r1.dropWhile isWs with
    | c :: rest => if c == '=' then w0 ++ (new ++ (w1 ++ c :: rest)) else l
    | [] => l

/-- `takeRun b l` splits `l` into its longest prefix of characters whose
word-character status is `b`, and the remainder. -/
def takeRun (b : Bool) : List Char → List Char × List Char
  | [] => ([], [])
  | c :: cs =>
    if isWordChar c = b then
      let p := takeRun b cs
      (c :: p.1, p.2)
    else ([], c :: cs)

theorem takeRun_append (b : Bool) : ∀ l : List Char, (takeRun b l).1 ++ (takeRun b l).2 = l
  | [] => rfl
  | c :: cs => by
    by_cases h : isWordChar c = b <;> simp [takeRun, h, takeRun_append b cs]

theorem takeRun_snd_length (b : Bool) : ∀ l : List Char, (takeRun b l).2.length ≤ l.length
  | [] => Nat.le_refl _
  | c :: cs => by
    by_cases h : isWordChar c = b <;> simp [takeRun, h]
    · exact Nat.le_succ_of_le (takeRun_snd_length b cs)

theorem takeRun_fst_all (b : Bool) : ∀ l : List Char, ∀ c ∈ (takeRun b l).1, isWordChar c = b
  | [], c, h => by simp [takeRun] at h
  | a :: cs, c, h => by
    by_cases hb : isWordChar a = b
    · simp [takeRun, hb] at h
      rcases h with h | h
      · subst h; exact hb
      · exact takeRun_fst_all b cs c h
    · simp [takeRun, hb] at h

theorem takeRun_snd_head (b : Bool) :
    ∀ l : List Char, ∀ c ∈ (takeRun b l).2.head?, isWordChar c ≠ b
  | [], c, h => by simp [takeRun] at h
  | a :: cs, c, h => by
    by_cases hb : isWordChar a = b
    · simp [takeRun, hb] at h
      exact takeRun_snd_head b cs c h
    · simp [takeRun, hb] at h
      subst h; exact hb

/-- A full run followed by a remainder of opposite status is split back as given. -/
theorem takeRun_full (b : Bool) (t r : List Char) (ht : ∀ c ∈ t, isWordChar c = b)
    (hr : ∀ c ∈ r.head?, isWordChar c ≠ b) : takeRun b (t ++ r) = (t, r) := by
  induction t with
  | nil =>
    cases r with
    | nil => rfl
    | cons c cs =>
      have := hr c (by simp)
      simp [takeRun, this]
  | cons a t ih =>
    have ha := ht a (by simp)
    have ih' := ih (fun c hc => ht c (by simp [hc]))
    show takeRun b (a :: (t ++ r)) = (a :: t, r)
    unfold takeRun
    rw [if_pos ha, ih']

/-- The maximal-run decomposition of a line: alternating runs of word characters
and non-word characters (fuel-driven so that it is structural recursion). -/
def chunksF : Nat → List Char → List (List Char)
  | 0, _ => []
  | _ + 1, [] => []
  | n + 1, c :: cs =>
    let p := takeRun (isWordChar c) cs
    (c :: p.1) :: chunksF n p.2

def chunks (l : List Char) : List (List Char) := chunksF l.length l

theorem chunksF_fuel : ∀ (n m : Nat) (l : List Char),
    l.length ≤ n → l.length ≤ m → chunksF n l = chunksF m l
  | 0, 0, _, _, _ => rfl
  | 0, _ + 1, l, h, _ => by
    have : l = [] := List.length_eq_zero.mp (Nat.le_zero.mp h)
    subst this; rfl
  | _ + 1, 0, l, _, h => by
    have : l = [] := List.length_eq_zero.mp (Nat.le_zero.mp h)
    subst this; rfl
  | n + 1, m + 1, [], _, _ => rfl
  | n + 1, m + 1, c :: cs, h, h' => by
    simp only [chunksF]
    have hlen := takeRun_snd_length (isWordChar c) cs
    have h1 : (takeRun (isWordChar c) cs).2.length ≤ n :=
      le_trans hlen (Nat.lt_succ_iff.mp (lt_of_lt_of_le (Nat.lt_succ_of_le (le_refl _)) (by simpa using h)))
    have h2 : (takeRun (isWordChar c) cs).2.length ≤ m :=
      le_trans hlen (Nat.lt_succ_iff.mp (lt_of_lt_of_le (Nat.lt_succ_of_le (le_refl _)) (by simpa using h')))
    rw [chunksF_fuel n m _ h1 h2]

theorem chunks_nil : chunks [] = [] := rfl

theorem chunks_cons (c : Char) (cs : List Char) :
    chunks (c :: cs) =
      (c :: (takeRun (isWordChar c) cs).1) :: chunks (takeRun (isWordChar c) cs).2 := by
  show chunksF (cs.length + 1) (c :: cs) = _
  simp only [chunksF]
  rw [chunksF_fuel _ (takeRun (isWordChar c) cs).2.length _ (takeRun_snd_length _ _) (le_refl _)]
  rfl

theorem chunks_flatten : ∀ l : List Char, (chunks l).flatten = l
  | [] => rfl
  | c :: cs => by
    rw [chunks_cons]
    have : (chunks (takeRun (isWordChar c) cs).2).flatten = (takeRun (isWordChar c) cs).2 := by
      have hlen := takeRun_snd_length (isWordChar c) cs
      exact chunks_flatten _
    simp [this, takeRun_append]
termination_by l => l.length
decreasing_by
  simp_wf
  exact Nat.lt_succ_of_le (takeRun_snd_length _ _)

/-- `Alt b cl`: `cl` is a wellformed run decomposition whose first run has
word-character status `b`: every run is nonempty and uniform, adjacent runs
alternate status. -/
inductive Alt : Bool → List (List Char) → Prop
  | nil (b : Bool) : Alt b []
  | cons (b : Bool) (t : List Char) (ts : List (List Char)) :
      t ≠ [] → (∀ c ∈ t, isWordChar c = b) → Alt (!b) ts → Alt b (t :: ts)

theorem alt_flatten_head {b : Bool} {cl : List (List Char)} (h : Alt b cl) :
    ∀ c ∈ cl.flatten.head?, isWordChar c = b := by
  cases h with
  | nil => simp
  | cons b t ts hne hall _ =>
    intro c hc
    cases t with
    | nil => exact absurd rfl hne
    | cons a t' =>
      simp at hc
      subst hc
      exact hall a (by simp)

/-- Rebuilding: `chunks` of the flattening of a wellformed decomposition returns it. -/
theorem chunks_of_alt : ∀ {b : Bool} {cl : List (List Char)}, Alt b cl →
    chunks cl.flatten = cl := by
  intro b cl h
  induction h with
  | nil => simp [chunks_nil]
  | cons b t ts hne hall halt ih =>
    cases t with
    | nil => exact absurd rfl hne
    | cons a t' =>
      have ha : isWordChar a = b := hall a (by simp)
      have hrest : ∀ c ∈ ts.flatten.head?, isWordChar c ≠ b := by
        intro c hc
        have := alt_flatten_head halt c hc
        simp [this]
      rw [List.flatten_cons, List.cons_append, chunks_cons, ha,
        takeRun_full b t' ts.flatten (fun c hc => hall c (by simp [hc])) hrest]
      simp [ih]

/-- The decomposition produced by `chunks` is wellformed. -/
theorem alt_chunks : ∀ l : List Char, l ≠ [] → Alt (isWordChar (l.headD ' ')) (chunks l)
  | [], h => absurd rfl h
  | c :: cs, _ => by
    rw [chunks_cons]
    simp only [List.headD_cons]
    refine Alt.cons _ _ _ (by simp) ?_ ?_
    · intro d hd
      simp at hd
      rcases hd with hd | hd
      · subst hd; rfl
      · exact takeRun_fst_all _ cs d hd
    · rcases hr : (takeRun (isWordChar c) cs).2 with _ | ⟨d, ds⟩
      · exact Alt.nil _
      · have hd : isWordChar d ≠ isWordChar c := by
          have := takeRun_snd_head (isWordChar c) cs d (by rw [hr]; rfl)
          exact this
        have : isWordChar d = !isWordChar c := by
          cases hb : isWordChar c <;> cases hb' : isWordChar d <;> simp_all
        have halt := alt_chunks (d :: ds) (by simp)
        simp only [List.headD_cons] at halt
        rw [this] at halt
        exact halt
termination_by l => l.length
decreasing_by
  simp_wf
  have := takeRun_snd_length (isWordChar c) cs
  rw [hr] at this
  simp only [List.length_cons] at this ⊢
  omega

/-- Translation of `re.sub(rf'\b{name}\b', new, line)` for an identifier `name`:
a word-bounded match of an all-word-character pattern is exactly a maximal word
run equal to the pattern, so the substitution replaces every such run. -/
def subWord (name new l : List Char) : List Char :=
  ((chunks l).map (fun t => if t = name then new else t)).flatten

theorem ident_head_word {s : List Char} (h : Ident s) :
    ∀ c ∈ s.head?, isWordChar c = true := by
  intro c hc
  rcases s with _ | ⟨a, s'⟩
  · simp at hc
  · simp at hc; subst hc
    exact h.2 a (by simp)

/-- A run of non-word characters is never an identifier. -/
theorem sep_ne_ident {t s : List Char} (hall : ∀ c ∈ t, isWordChar c = false)
    (hs : Ident s) : t ≠ s := by
  intro h
  subst h
  rcases t with _ | ⟨a, t'⟩
  · exact hs.1 rfl
  · have h1 := hall a (by simp)
    have h2 := hs.2 a (by simp)
    rw [h1] at h2
    exact Bool.false_ne_true h2

theorem alt_map_subst {a bb : List Char} (ha : Ident a) (hb : Ident bb) :
    ∀ {b : Bool} {cl : List (List Char)}, Alt b cl →
      Alt b (cl.map (fun t => if t = a then bb else t)) := by
  intro b cl h
  induction h with
  | nil => exact Alt.nil _
  | cons b t ts hne hall halt ih =>
    simp only [List.map_cons]
    by_cases ht : t = a
    · subst ht
      cases b with
      | false => exact absurd rfl (sep_ne_ident (by simpa using hall) ha)
      | true =>
        simp only [if_pos rfl]
        exact Alt.cons _ _ _ hb.1 (fun c hc => hb.2 c hc) ih
    · rw [if_neg ht]
      exact Alt.cons _ _ _ hne hall ih

/-- `chunks` of a substitution result is the mapped decomposition. -/
theorem chunks_subWord {a bb : List Char} (ha : Ident a) (hb : Ident bb) (l : List Char) :
    chunks (subWord a bb l) = (chunks l).map (fun t => if t = a then bb else t) := by
  rcases hl : l with _ | ⟨c, cs⟩
  · simp [subWord, chunks_nil]
  · rw [← hl]
    have halt := alt_chunks l (by rw [hl]; simp)
    exact chunks_of_alt (alt_map_subst ha hb halt)

theorem subWord_self (a l : List Char) : subWord a a l = l := by
  unfold subWord
  have : (fun t => if t = a then a else t) = fun t : List Char => t := by
    funext t
    by_cases h : t = a <;> simp [h]
  rw [this]
  simp [chunks_flatten]

/-- Number of whole-word occurrences of identifier `t` in a line. -/
def countTok (t l : List Char) : Nat := ((chunks l).filter (fun u => u = t)).length

/-- Whole-word substitution of `a` by `bb` does not change the number of
whole-word occurrences of any third identifier `t`. -/
theorem countTok_subWord {a bb t : List Char} (ha : Ident a) (hb : Ident bb)
    (hta : t ≠ a) (htb : t ≠ bb) (l : List Char) :
    countTok t (subWord a bb l) = countTok t l := by
  unfold countTok
  rw [chunks_subWord ha hb, ← List.countP_eq_length_filter, ← List.countP_eq_length_filter,
    List.countP_map]
  apply List.countP_congr
  intro u _
  simp only [Function.comp_apply]
  by_cases hu : u = a
  · rw [if_pos hu, hu]
    have h1 : ¬ bb = t := fun h => htb h.symm
    have h2 : ¬ a = t := fun h => hta h.symm
    simp [h1, h2]
  · rw [if_neg hu]

/-- The reference-update inner loop (lines 256-260 of the script): for `fuel`
lines starting at index `j`, replace whole-word occurrences of `cur` by `new`
on every line that does not look like another assignment to `var`. -/
def updateRangeF (var cur new : List Char) : Nat → Nat → List (List Char) → List (List Char)
  | 0, _, lines => lines
  | n + 1, j, lines =>
    let l := lines.getD j []
    let lines' := if isAssignHead var l then lines else lines.set j (subWord cur new l)
    updateRangeF var cur new n (j + 1) lines'

/-- The per-assignment loop of `fix_function_variable` (lines 234-262): walk the
assignment sites in order, pairing each with the next replacement name, rename the
assignment line, then update references up to the next site (or the end of the
region); stop when the replacement names run out. -/
def processSites (var : List Char) :
    List (List Char) → List Char → List Nat → List (List Char) → List (List Char)
  | [], _, _, lines => lines
  | _ :: _, _, [], lines => lines
  | rep :: reps, cur, li :: rest, lines =>
    let lines1 := lines.set li (renameAssign var rep (lines.getD li []))
    let e := match rest with
      | nxt :: _ => nxt
      | [] => lines1.length
    let lines2 := updateRangeF var cur rep (e - (li + 1)) (li + 1) lines1
    processSites var reps rep rest lines2

/-- `re.search(rf'^\s*{var}\s*$', line)`: the line is exactly the identifier
surrounded by whitespace. -/
def isTrailBare (var l : List Char) : Bool :=
  match dropStart? var (l.dropWhile isWs) with
  | some r => r.all isWs
  | none => false

/-- `re.search(rf'^\s*{var}\s*\|>', line)`: the identifier piping onward. -/
def startsWithPipe : List Char → Bool
  | c1 :: c2 :: _ => c1 == '|' && c2 == '>'
  | _ => false

def isTrailPipe (var l : List Char) : Bool :=
  match dropStart? var (l.dropWhile isWs) with
  | some r => startsWithPipe (r.dropWhile isWs)
  | none => false

/-- `re.search(rf'^\s*\{{\s*:ok\s*,\s*{var}\s*\}}', line)`: the identifier as the
payload of an ok-tagged two-element tuple. -/
def isTrailOk (var l : List Char) : Bool :=
  match l.dropWhile isWs with
  | c0 :: r1 =>
    c0 == '\x7b' &&
    (match r1.dropWhile isWs with
     | c1 :: c2 :: c3 :: r2 =>
       c1 == ':' && c2 == 'o' && c3 == 'k' &&
       (match r2.dropWhile isWs with
        | c4 :: r3 =>
          c4 == ',' &&
          (match dropStart? var (r3.dropWhile isWs) with
           | some r4 =>
             match r4.dropWhile isWs with
             | c5 :: _ => c5 == '\x7d'
             | [] => false
           | none => false)
        | [] => false)
     | _ => false)
  | [] => false

/-- The trailing-reference test of lines 269-271 of the script. -/
def isTrailingRef (var l : List Char) : Bool :=
  isTrailBare var l || isTrailPipe var l || isTrailOk var l

/-- The backward scan of lines 266-273: starting from index `n - 1` and walking
down, rewrite the first line that is a standalone trailing reference to `var`
(whole-word occurrences of `var` replaced by `fin`) and stop. -/
def trailingAux (var fin : List Char) : Nat → List (List Char) → List (List Char)
  | 0, lines => lines
  | n + 1, lines =>
    let l := lines.getD n []
    if isTrailingRef var l then lines.set n (subWord var fin l)
    else trailingAux var fin n lines

/-- `fix_function_variable` (lines 217-275 of the script): the Live-Range Rewriter
for one region (given as its list of lines), one identifier and its replacement
name sequence. -/
def fixFunctionVariable (lines : List (List Char)) (var : List Char)
    (repls : List (List Char)) : List (List Char) :=
  let sites := assignmentSites var lines
  if sites.length ≤ 1 then lines
  else
    let lines1 := processSites var repls var sites lines
    let fin := repls.getD (min (sites.length - 1) (repls.length - 1)) []
    trailingAux var fin lines1.length lines1

/-- The curated naming strategies of lines 71-192 of the script. -/
def curatedStrategies : List (List Char × List (List Char)) :=
  [(s2l "recommendations",
    [s2l "initial_recommendations", s2l "base_recommendations", s2l "tactical_recommendations",
     s2l "strategic_recommendations", s2l "enhanced_recommendations", s2l "final_recommendations"]),
   (s2l "factors",
    [s2l "initial_factors", s2l "base_factors", s2l "numerical_factors",
     s2l "tactical_factors", s2l "control_factors", s2l "final_factors"]),
   (s2l "warnings",
    [s2l "initial_warnings", s2l "critical_warnings", s2l "security_warnings",
     s2l "performance_warnings", s2l "operational_warnings", s2l "final_warnings"]),
   (s2l "alerts",
    [s2l "initial_alerts", s2l "critical_alerts", s2l "warning_alerts",
     s2l "info_alerts", s2l "system_alerts", s2l "final_alerts"]),
   (s2l "gaps",
    [s2l "initial_gaps", s2l "coverage_gaps", s2l "skill_gaps",
     s2l "resource_gaps", s2l "strategic_gaps", s2l "final_gaps"]),
   (s2l "risks",
    [s2l "initial_risks", s2l "operational_risks", s2l "security_risks",
     s2l "financial_risks", s2l "strategic_risks", s2l "final_risks"]),
   (s2l "risk_factors",
    [s2l "initial_risk_factors", s2l "behavioral_risk_factors", s2l "environmental_risk_factors",
     s2l "operational_risk_factors", s2l "strategic_risk_factors", s2l "final_risk_factors"]),
   (s2l "anomalies",
    [s2l "initial_anomalies", s2l "behavioral_anomalies", s2l "statistical_anomalies",
     s2l "temporal_anomalies", s2l "pattern_anomalies", s2l "final_anomalies"]),
   (s2l "suggestions",
    [s2l "initial_suggestions", s2l "improvement_suggestions", s2l "optimization_suggestions",
     s2l "tactical_suggestions", s2l "strategic_suggestions", s2l "final_suggestions"]),
   (s2l "actions",
    [s2l "initial_actions", s2l "immediate_actions", s2l "remedial_actions",
     s2l "preventive_actions", s2l "long_term_actions", s2l "final_actions"]),
   (s2l "improvements",
    [s2l "initial_improvements", s2l "priority_improvements", s2l "performance_improvements",
     s2l "quality_improvements", s2l "strategic_improvements", s2l "final_improvements"]),
   (s2l "confidence_factors",
    [s2l "initial_confidence_factors", s2l "data_confidence_factors", s2l "analysis_confidence_factors",
     s2l "prediction_confidence_factors", s2l "validation_confidence_factors", s2l "final_confidence_factors"]),
   (s2l "parts",
    [s2l "initial_parts", s2l "header_parts", s2l "body_parts",
     s2l "footer_parts", s2l "metadata_parts", s2l "final_parts"]),
   (s2l "report",
    [s2l "initial_report", s2l "summary_report", s2l "detailed_report",
     s2l "analysis_report", s2l "metrics_report", s2l "final_report"]),
   (s2l "suggested_additions",
    [s2l "initial_suggested_additions", s2l "tactical_suggested_additions", s2l "strategic_suggested_additions",
     s2l "operational_suggested_additions", s2l "enhancement_suggested_additions", s2l "final_suggested_additions"])]

/-- The Naming Strategy Registry (`naming_strategies.get(var_name, [...])`, lines
71-202): the curated sequence for a known identifier, else the generic qualified
sequence. -/
def namesFor (var : List Char) : List (List Char) :=
  match curatedStrategies.find? (fun p => p.1 = var) with
  | some p => p.2
  | none =>
    [s2l "initial_" ++ var, s2l "base_" ++ var, s2l "enhanced_" ++ var,
     s2l "processed_" ++ var, s2l "updated_" ++ var, s2l "final_" ++ var]

/-- Python `str.split('\n')`. -/
def splitLines : List Char → List (List Char)
  | [] => [[]]
  | c :: rest =>
    if c == '\n' then [] :: splitLines rest
    else
      match splitLines rest with
      | l :: ls => (c :: l) :: ls
      | [] => [[c]]

/-- Python `'\n'.join(lines)`. -/
def joinLines : List (List Char) → List Char
  | [] => []
  | [l] => l
  | l :: ls => l ++ '\n' :: joinLines ls

/-- `fix_function_variable` on a region given as raw text (the script splits on
newlines and joins back). -/
def fixFnStr (s var : List Char) (repls : List (List Char)) : List Char :=
  joinLines (fixFunctionVariable (splitLines s) var repls)

/-- One alternative of the lookahead `(?=\n\s*defp?\s|\n\s*@|\nend\n|\Z)` of the
function pattern (line 205 of the script): the lazy body scan stops here. -/
def lookaheadAt (l : List Char) : Bool :=
  match l with
  | [] => true
  | c :: rest =>
    c == '\n' &&
    ((dropStart? (s2l "end\n") rest).isSome ||
     (match rest.dropWhile isWs with
      | d :: r2 =>
        d == '@' ||
        (match dropStart? (s2l "def") (d :: r2) with
         | some r3 =>
           match r3 with
           | e :: r4 =>
             if e == 'p' then
               match r4 with
               | f :: _ => isWs f
               | [] => false
             else isWs e
           | [] => false
         | none => false)
      | [] => false))

/-- The lazy `.*?` scan: consume characters until the first position where the
lookahead matches (the end of the text always matches, via `\Z`). -/
def lazyAux : List Char → List Char → List Char × List Char
  | acc, [] => (acc.reverse, [])
  | acc, c :: cs =>
    if lookaheadAt (c :: cs) then (acc.reverse, c :: cs)
    else lazyAux (c :: acc) cs

/-- `defp?` followed by mandatory whitespace: keep the `p` when whitespace follows
it, else fall back to `def` when whitespace follows that (regex backtracking for
this pattern has exactly these two outcomes). -/
def afterKw : List Char → Option (List Char)
  | [] => none
  | c :: rest =>
    if c == 'p' then
      match rest with
      | d :: _ => if isWs d then some rest else none
      | [] => none
    else if isWs c then some (c :: rest) else none

/-- The `\s+\w+` step after the keyword: at least one whitespace character, then
at least one word character; returns the text after the greedy `\w+`. -/
def wsThenName : List Char → Option (List Char)
  | [] => none
  | c :: rest1 =>
    if isWs c then
      match rest1.dropWhile isWs with
      | [] => none
      | d :: rest2 => if isWordChar d then some (rest2.dropWhile isWordChar) else none
    else none

/-- Match the function pattern `defp?\s+\w+.*?(?=...)` at the head of `l`,
returning the matched region text and the remaining text. -/
def matchFuncAt (l : List Char) : Option (List Char × List Char) :=
  (dropStart? (s2l "def") l).bind fun r0 =>
  (afterKw r0).bind fun r1 =>
  (wsThenName r1).map fun r3 =>
    let rest := (lazyAux [] r3).2
    (l.take (l.length - rest.length), rest)

/-- `re.finditer(function_pattern, content, re.DOTALL)` (lines 205-206): scan left
to right, yielding non-overlapping matches and advancing one character on failure. -/
def finditerAux : Nat → List Char → List (List Char)
  | 0, _ => []
  | _ + 1, [] => []
  | fuel + 1, l =>
    match matchFuncAt l with
    | some (region, rest) => region :: finditerAux fuel rest
    | none =>
      match l with
      | [] => []
      | _ :: cs => finditerAux fuel cs

/-- The Region Locator: all function-pattern matches of the content, in order. -/
def locateRegions (content : List Char) : List (List Char) :=
  finditerAux (content.length + 1) content

/-- Python `needle in haystack` (substring containment). -/
def containsSub (p : List Char) : List Char → Bool
  | [] => p.isEmpty
  | c :: cs => (dropStart? p (c :: cs)).isSome || containsSub p cs

/-- Python `str.replace(old, new)` — all non-overlapping occurrences, left to
right (fuel-driven; `old` is always a nonempty matched region here). -/
def replAux (old new : List Char) : Nat → List Char → List Char
  | 0, l => l
  | _ + 1, [] => []
  | fuel + 1, c :: cs =>
    match dropStart? old (c :: cs) with
    | some rest => new ++ replAux old new fuel rest
    | none => c :: replAux old new fuel cs

def replaceAll (old new l : List Char) : List Char := replAux old new l.length l

/-- `fix_variable_in_content` (lines 68-215): locate every function region of the
content; for each region whose text contains the literal substring `var ++ " ="`,
run the Live-Range Rewriter and splice the result back with a global string
replace when it changed anything. -/
def fixVariableInContent (content var : List Char) : List Char :=
  let repls := namesFor var
  (locateRegions content).foldl
    (fun c region =>
      if containsSub (var ++ [' ', '=']) region then
        let newFunc := fixFnStr region var repls
        if newFunc ≠ region then replaceAll region newFunc c else c
      else c)
    content

/-- Order-preserving deduplication: the iteration order of the Python dict
`vars_to_fix` (keys in first-occurrence order). -/
def dedupAux (seen : List (List Char)) : List (List Char) → List (List Char)
  | [] => []
  | v :: vs => if v ∈ seen then dedupAux seen vs else v :: dedupAux (v :: seen) vs

/-- `fix_specific_file_issues` (lines 40-66): the File Orchestrator for one file.
File input/output is modelled explicitly: `readRes` is the content read (`none` for
a read failure) and `writeOk` says whether a write attempt succeeds.  The result is
the content written back (`none` when nothing was written) paired with the boolean
the function returns.  A raised read/write error takes the `except` path: report,
no write, return `False`. -/
def fixSpecificFileIssues (readRes : Option (List Char)) (writeOk : Bool)
    (issues : List (List Char × Nat)) : Option (List Char) × Bool :=
  match readRes with
  | none => (none, false)
  | some content =>
    let vars := dedupAux [] (issues.map Prod.fst)
    let final := vars.foldl (fun c v => fixVariableInContent c v) content
    if final = content then (none, false)
    else if writeOk then (some final, true)
    else (none, false)

/-- The Scenario A region: `recommendations = []`, then
`recommendations = [recommendations, "x"]`, then the trailing `recommendations`. -/
def scenarioARegion : List (List Char) :=
  [s2l "recommendations = []",
   s2l "recommendations = [recommendations, \"x\"]",
   s2l "recommendations"]

/-- Claim C2 (code evaluation): on the Scenario A region the rewriter renames both
assignment heads and the trailing reference, but leaves the reference inside the
second assignment's right-hand side as the original `recommendations` — the
reference-update range `range(line_idx + 1, next_site)` excludes the next
assignment line, and that line is skipped by the assignment-shape test anyway, so
the output's second line is `base_recommendations = [recommendations, "x"]` and
not the `base_recommendations = [initial_recommendations, "x"]` the claim states. -/
theorem c2_scenario_a_eval :
    fixFunctionVariable scenarioARegion (s2l "recommendations")
        (namesFor (s2l "recommendations")) =
      [s2l "initial_recommendations = []",
       s2l "base_recommendations = [recommendations, \"x\"]",
       s2l "base_recommendations"] ∧
    (fixFunctionVariable scenarioARegion (s2l "recommendations")
        (namesFor (s2l "recommendations"))).getD 1 [] ≠
      s2l "base_recommendations = [initial_recommendations, \"x\"]" := by
  decide

/-- A region whose only standalone reference to `recommendations` sits above the
two assignment sites. -/
def c3Region : List (List Char) :=
  [s2l "  recommendations",
   s2l "  recommendations = []",
   s2l "  recommendations = [1]"]

/-- Claim C3 (counterexample): the trailing-reference step does not scan only the
lines strictly below the last assignment site — the backward loop runs over the
whole region (`range(len(lines) - 1, -1, -1)`).  Here the assignment sites are
lines 1 and 2, yet the step rewrites line 0, which lies above the last site. -/
theorem c3_counterexample :
    assignmentSites (s2l "recommendations") c3Region = [1, 2] ∧
    fixFunctionVariable c3Region (s2l "recommendations")
        (namesFor (s2l "recommendations")) =
      [s2l "  base_recommendations",
       s2l "  initial_recommendations = []",
       s2l "  base_recommendations = [1]"] ∧
    (fixFunctionVariable c3Region (s2l "recommendations")
        (namesFor (s2l "recommendations"))).getD 0 [] ≠ c3Region.getD 0 [] := by
  decide

/-- A region containing the identifier pair `risk` / `initial_risk`, where `risk`
is a proper substring of `initial_risk`. -/
def c6Region : List (List Char) :=
  [s2l "initial_risk = 1",
   s2l "risk = 2",
   s2l "risk = 3",
   s2l "x = initial_risk"]

/-- Claim C6 (counterexample): rewriting the target `risk` alters an occurrence of
the distinct identifier `initial_risk` (of which `risk` is a proper substring):
the second live range substitutes the previously chosen name `initial_risk`, so
the pre-existing whole-word occurrence on line 3 becomes `base_risk`.  The counts
of whole-word occurrences of `initial_risk` per line change from `[1,0,0,1]` to
`[1,1,0,0]`. -/
theorem c6_counterexample :
    fixFunctionVariable c6Region (s2l "risk") (namesFor (s2l "risk")) =
      [s2l "initial_risk = 1",
       s2l "initial_risk = 2",
       s2l "base_risk = 3",
       s2l "x = base_risk"] ∧
    (fixFunctionVariable c6Region (s2l "risk") (namesFor (s2l "risk"))).map
        (countTok (s2l "initial_risk")) ≠
      c6Region.map (countTok (s2l "initial_risk")) := by
  decide

theorem ws_not_word {c : Char} (h : isWs c = true) : isWordChar c = false := by
  simp only [isWs, Bool.or_eq_true, beq_iff_eq] at h
  rcases h with ((((h | h) | h) | h) | h) | h <;> subst h <;> decide

theorem word_not_ws {c : Char} (h : isWordChar c = true) : isWs c = false := by
  cases hw : isWs c
  · rfl
  · rw [ws_not_word hw] at h
    exact absurd h (by simp)

theorem dropWhile_ws_append {w x : List Char} (hw : ∀ c ∈ w, isWs c = true) :
    (w ++ x).dropWhile isWs = x.dropWhile isWs := by
  induction w with
  | nil => rfl
  | cons a w ih =>
    have := hw a (by simp)
    simp only [List.cons_append, List.dropWhile_cons, this, if_pos]
    exact ih (fun c hc => hw c (by simp [hc]))

theorem dropWhile_ws_of_head {x : List Char} (hx : ∀ c ∈ x.head?, isWs c = false) :
    x.dropWhile isWs = x := by
  cases x with
  | nil => rfl
  | cons a x =>
    have := hx a (by simp)
    simp [List.dropWhile_cons, this]

/-- An identifier, then anything: leading-whitespace stripping is the identity. -/
theorem dropWhile_ws_ident_append {v x : List Char} (hv : Ident v) :
    (v ++ x).dropWhile isWs = v ++ x := by
  apply dropWhile_ws_of_head
  intro c hc
  rcases v with _ | ⟨a, v'⟩
  · exact absurd rfl hv.1
  · simp at hc
    subst hc
    exact word_not_ws (hv.2 a (by simp))

/-- The claim's own wording of the Assignment Scanner test: after stripping leading
whitespace the line begins with the identifier, followed by optional whitespace and
a single `=` that is not immediately followed by another `=`. -/
def SpecAssignmentLine (var l : List Char) : Prop :=
  ∃ w0 w1 rest, l = w0 ++ (var ++ (w1 ++ '=' :: rest)) ∧
    (∀ c ∈ w0, isWs c = true) ∧ (∀ c ∈ w1, isWs c = true) ∧
    (∀ c ∈ rest.head?, c ≠ '=')

/-- The code's site test coincides with the claim's characterization. -/
theorem specAssignment_iff {var : List Char} (hvar : Ident var) (l : List Char) :
    SpecAssignmentLine var l ↔ isAssignSite var l = true := by
  constructor
  · rintro ⟨w0, w1, rest, rfl, hw0, hw1, hrest⟩
    unfold isAssignSite
    rw [dropWhile_ws_append hw0, dropWhile_ws_ident_append hvar, dropStart?_self_append]
    show startsWithSingleEq ((w1 ++ '=' :: rest).dropWhile isWs) = true
    rw [dropWhile_ws_append hw1,
      dropWhile_ws_of_head (by intro c hc; simp at hc; subst hc; decide)]
    cases rest with
    | nil => rfl
    | cons b rest' =>
      have hb : b ≠ '=' := hrest b (by simp)
      simp [startsWithSingleEq, hb]
  · intro h
    unfold isAssignSite at h
    rcases hds : dropStart? var (l.dropWhile isWs) with _ | r
    · rw [hds] at h
      exact absurd h (by simp)
    · rw [hds] at h
      have h' : startsWithSingleEq (r.dropWhile isWs) = true := h
      rcases hdw : r.dropWhile isWs with _ | ⟨b, t⟩
      · rw [hdw] at h'
        exact absurd h' (by simp [startsWithSingleEq])
      · rw [hdw] at h'
        simp only [startsWithSingleEq, Bool.and_eq_true, beq_iff_eq] at h'
        obtain ⟨hb, ht⟩ := h'
        subst hb
        refine ⟨l.takeWhile isWs, r.takeWhile isWs, t, ?_, ?_, ?_, ?_⟩
        · have h1 : l.dropWhile isWs = var ++ r := dropStart?_eq_some.mp hds
          have h2 : r = r.takeWhile isWs ++ ('=' :: t) := by
            conv_lhs => rw [← List.takeWhile_append_dropWhile (p := isWs) (l := r)]
            rw [hdw]
          conv_lhs => rw [← List.takeWhile_append_dropWhile (p := isWs) (l := l)]
          rw [h1]
          conv_lhs => rw [h2]
        · intro c hc; exact List.mem_takeWhile_imp hc
        · intro c hc; exact List.mem_takeWhile_imp hc
        · intro c hc
          cases t with
          | nil => simp at hc
          | cons u t' =>
            simp at hc
            subst hc
            intro hcc
            subst hcc
            simp at ht

/-- Claim C4: the Assignment Scanner reports index `i` as a site iff the `i`-th
line of the region, after stripping leading whitespace, begins with the identifier
followed by optional whitespace and a single `=` not followed by another `=`
(`SpecAssignmentLine`); the returned indices are in strictly increasing order; and
the result is empty when no line of the region has that shape (so a line such as
`recommendations == x` is never reported). -/
theorem c4_scanner_spec (var : List Char) (hvar : Ident var) (lines : List (List Char)) :
    (∀ i, i ∈ assignmentSites var lines ↔
        i < lines.length ∧ SpecAssignmentLine var (lines.getD i [])) ∧
    List.Pairwise (· < ·) (assignmentSites var lines) ∧
    ((∀ i < lines.length, ¬ SpecAssignmentLine var (lines.getD i [])) →
      assignmentSites var lines = []) := by
  have hmem : ∀ i, i ∈ assignmentSites var lines ↔
      i < lines.length ∧ SpecAssignmentLine var (lines.getD i []) := by
    intro i
    unfold assignmentSites
    rw [List.mem_filter, List.mem_range, specAssignment_iff hvar]
  refine ⟨hmem, ?_, ?_⟩
  · exact (List.pairwise_lt_range _).filter _
  · intro hnone
    rw [List.eq_nil_iff_forall_not_mem]
    intro i hi
    rw [hmem i] at hi
    exact hnone i hi.1 hi.2

/-- Witness for C4 at a concrete region: line 1 (`  recommendations = 1`) is a
site and satisfies the characterization, while the region `[recommendations == x]`
yields no site at all. -/
theorem c4_scanner_spec_witness :
    (1 ∈ assignmentSites (s2l "recommendations")
        [s2l "recommendations == x", s2l "  recommendations = 1"] ↔
      1 < ([s2l "recommendations == x", s2l "  recommendations = 1"] :
            List (List Char)).length ∧
      SpecAssignmentLine (s2l "recommendations")
        (([s2l "recommendations == x", s2l "  recommendations = 1"] :
            List (List Char)).getD 1 [])) ∧
    assignmentSites (s2l "recommendations") [s2l "recommendations == x"] = [] :=
  ⟨(c4_scanner_spec (s2l "recommendations") (by decide)
      [s2l "recommendations == x", s2l "  recommendations = 1"]).1 1,
   by decide⟩

theorem mem_assignmentSites {var : List Char} {lines : List (List Char)} {i : Nat} :
    i ∈ assignmentSites var lines ↔
      i < lines.length ∧ isAssignSite var (lines.getD i []) = true := by
  unfold assignmentSites
  rw [List.mem_filter, List.mem_range]

theorem assignmentSites_pairwise (var : List Char) (lines : List (List Char)) :
    List.Pairwise (· < ·) (assignmentSites var lines) :=
  (List.pairwise_lt_range _).filter _

theorem sites_len_le_one_of_unique {var : List Char} (hvar : Ident var)
    (lines : List (List Char))
    (h : ∀ i j, i < lines.length → j < lines.length →
        SpecAssignmentLine var (lines.getD i []) →
        SpecAssignmentLine var (lines.getD j []) → i = j) :
    (assignmentSites var lines).length ≤ 1 := by
  rcases hs : assignmentSites var lines with _ | ⟨a, t⟩
  · simp
  · rcases t with _ | ⟨b, t'⟩
    · simp
    · exfalso
      have ha : a ∈ assignmentSites var lines := by rw [hs]; simp
      have hb : b ∈ assignmentSites var lines := by rw [hs]; simp
      have hab : a < b := by
        have hp := assignmentSites_pairwise var lines
        rw [hs] at hp
        exact (List.pairwise_cons.mp hp).1 b (by simp)
      rw [mem_assignmentSites] at ha hb
      have hsa := (specAssignment_iff hvar _).mpr ha.2
      have hsb := (specAssignment_iff hvar _).mpr hb.2
      exact absurd (h a b ha.1 hb.1 hsa hsb) (Nat.ne_of_lt hab)

/-- Claim C5: a region in which at most one line is an assignment to the
identifier (in the sense of the scanner's characterization) is returned
byte-for-byte identical by the Live-Range Rewriter — the scanner's early exit
fires before any assignment, reference or trailing line is touched. -/
theorem c5_single_assignment_noop (lines : List (List Char)) (var : List Char)
    (repls : List (List Char)) (hvar : Ident var)
    (h : ∀ i j, i < lines.length → j < lines.length →
        SpecAssignmentLine var (lines.getD i []) →
        SpecAssignmentLine var (lines.getD j []) → i = j) :
    fixFunctionVariable lines var repls = lines := by
  unfold fixFunctionVariable
  simp only [if_pos (sites_len_le_one_of_unique hvar lines h)]

/-- Witness for C5: a one-line region holding exactly one assignment. -/
theorem c5_single_assignment_noop_witness :
    fixFunctionVariable [s2l "recommendations = [1]"] (s2l "recommendations")
        (namesFor (s2l "recommendations")) = [s2l "recommendations = [1]"] :=
  c5_single_assignment_noop _ _ _ (by decide)
    (fun i j hi hj _ _ => by
      simp only [List.length_cons, List.length_nil] at hi hj
      omega)

/-- Claim C10 (implicit): the per-function rewrite is gated by a literal substring
test `f'{var_name} ='` (one space).  When no located region contains that exact
substring, the whole content is returned unchanged — even if the scanner's own
pattern (identifier, optional whitespace, `=`) would find two or more assignment
sites inside a region, as with `v  =  1`. -/
theorem c10_gate (content var : List Char)
    (h : ∀ r ∈ locateRegions content, containsSub (var ++ [' ', '=']) r = false) :
    fixVariableInContent content var = content := by
  unfold fixVariableInContent
  have hgen : ∀ (rs : List (List Char)) (c : List Char),
      (∀ r ∈ rs, containsSub (var ++ [' ', '=']) r = false) →
      rs.foldl
        (fun c region =>
          if containsSub (var ++ [' ', '=']) region then
            let newFunc := fixFnStr region var (namesFor var)
            if newFunc ≠ region then replaceAll region newFunc c else c
          else c) c = c := by
    intro rs
    induction rs with
    | nil => intro c _; rfl
    | cons r rs ih =>
      intro c hall
      rw [List.foldl_cons]
      have hr := hall r (by simp)
      simp only [hr, Bool.false_eq_true, if_false]
      exact ih c (fun r' hr' => hall r' (by simp [hr']))
  exact hgen (locateRegions content) content h

/-- Witness for C10: a function whose two assignments are written `v  =  1` and
`v  =  2` (no single-space `v =` anywhere): the scanner sees two sites, yet the
content passes through unchanged. -/
theorem c10_gate_witness :
    (assignmentSites (s2l "v")
        (splitLines (s2l "def f do\n  v  =  1\n  v  =  2"))).length = 2 ∧
    fixVariableInContent (s2l "def f do\n  v  =  1\n  v  =  2\nend\n") (s2l "v") =
      s2l "def f do\n  v  =  1\n  v  =  2\nend\n" :=
  ⟨by decide, c10_gate _ _ (by decide)⟩

/-- Claim C9: the orchestrator `fix_specific_file_issues` writes back exactly when
the final rewritten text differs from the text read and the write succeeds; its
boolean result is `true` exactly when a write occurred; a read failure (and
likewise a write failure) is absorbed: nothing is written and the result is
`false`, never an exception that would abort the batch. -/
theorem c9_orchestrator (readRes : Option (List Char)) (writeOk : Bool)
    (issues : List (List Char × Nat)) :
    ((fixSpecificFileIssues readRes writeOk issues).2 = true ↔
      (fixSpecificFileIssues readRes writeOk issues).1.isSome = true) ∧
    (readRes = none → fixSpecificFileIssues readRes writeOk issues = (none, false)) ∧
    (∀ c, readRes = some c →
      ((fixSpecificFileIssues readRes writeOk issues).1.isSome = true ↔
        ((dedupAux [] (issues.map Prod.fst)).foldl
            (fun x v => fixVariableInContent x v) c ≠ c ∧ writeOk = true)) ∧
      ((fixSpecificFileIssues readRes writeOk issues).1 = none ∨
        (fixSpecificFileIssues readRes writeOk issues).1 =
          some ((dedupAux [] (issues.map Prod.fst)).foldl
            (fun x v => fixVariableInContent x v) c))) := by
  rcases readRes with _ | c0
  · exact ⟨by simp [fixSpecificFileIssues], fun _ => rfl, fun c hc => by cases hc⟩
  · refine ⟨?_, ?_, ?_⟩
    · unfold fixSpecificFileIssues
      by_cases hf : (dedupAux [] (issues.map Prod.fst)).foldl
          (fun x v => fixVariableInContent x v) c0 = c0
      · simp [hf]
      · cases writeOk <;> simp [hf]
    · intro h; cases h
    · intro c hc
      injection hc with hc
      subst hc
      unfold fixSpecificFileIssues
      by_cases hf : (dedupAux [] (issues.map Prod.fst)).foldl
          (fun x v => fixVariableInContent x v) c0 = c0
      · simp [hf]
      · cases writeOk <;> simp [hf]

/-- Witness for C9 at a concrete file: result flag is `true` iff a write happened. -/
theorem c9_orchestrator_witness :
    ((fixSpecificFileIssues (some (s2l "x")) true []).2 = true ↔
      (fixSpecificFileIssues (some (s2l "x")) true []).1.isSome = true) :=
  (c9_orchestrator (some (s2l "x")) true []).1

theorem getD_set_ne (d : List Char) : ∀ (L : List (List Char)) (i j : Nat) (a : List Char),
    i ≠ j → (L.set i a).getD j d = L.getD j d
  | [], _, _, _, _ => rfl
  | x :: xs, 0, 0, a, hij => absurd rfl hij
  | x :: xs, 0, j + 1, a, hij => rfl
  | x :: xs, i + 1, 0, a, hij => rfl
  | x :: xs, i + 1, j + 1, a, hij => by
    show (xs.set i a).getD j d = xs.getD j d
    exact getD_set_ne d xs i j a (fun h => hij (by rw [h]))

theorem getD_set_self (d : List Char) : ∀ (L : List (List Char)) (i : Nat) (a : List Char),
    i < L.length → (L.set i a).getD i d = a
  | [], i, a, h => by simp at h
  | x :: xs, 0, a, _ => rfl
  | x :: xs, i + 1, a, h => by
    show (xs.set i a).getD i d = a
    exact getD_set_self d xs i a (by simpa using h)

/-- `∀ c ∈ s.head?, isWordChar c = false` as a convenient predicate. -/
def HeadSep (s : List Char) : Prop := ∀ c ∈ s.head?, isWordChar c = false

theorem headSep_ws_cons {c : Char} {s : List Char} (h : isWs c = true) :
    HeadSep (c :: s) := by
  intro d hd
  simp at hd
  subst hd
  exact ws_not_word h

theorem headSep_ws_append {w s : List Char} (hw : ∀ c ∈ w, isWs c = true)
    (hs : HeadSep s) : HeadSep (w ++ s) := by
  cases w with
  | nil => exact hs
  | cons a w' => exact headSep_ws_cons (hw a (by simp))

/-- Matching identifier `v` against `w ++ s` where `w` is all word characters and
`s` starts with a non-word character factors through matching against `w`. -/
theorem dropStart?_word_sep {v : List Char} (hv : ∀ c ∈ v, isWordChar c = true) :
    ∀ {w : List Char}, (∀ c ∈ w, isWordChar c = true) → ∀ {s : List Char}, HeadSep s →
      dropStart? v (w ++ s) = (dropStart? v w).map (· ++ s) := by
  induction v with
  | nil => intro w _ s _; simp [dropStart?]
  | cons a v' ih =>
    intro w hw s hs
    cases w with
    | nil =>
      simp only [List.nil_append, dropStart?, Option.map_none']
      cases s with
      | nil => rfl
      | cons d s' =>
        have hd : isWordChar d = false := hs d (by simp)
        have ha : isWordChar a = true := hv a (by simp)
        have : a ≠ d := fun h => by rw [h, hd] at ha; exact Bool.false_ne_true ha
        simp [dropStart?, this]
    | cons b w' =>
      simp only [List.cons_append, dropStart?]
      by_cases hab : a = b
      · rw [if_pos hab, if_pos hab]
        exact ih (fun c hc => hv c (by simp [hc])) (fun c hc => hw c (by simp [hc])) hs
      · rw [if_neg hab, if_neg hab]
        rfl

theorem startsWithEq_word_head {c : Char} (t : List Char)
    (hc : isWordChar c = true) : startsWithEq (c :: t) = false := by
  have : c ≠ '=' := fun h => by subst h; exact Bool.false_ne_true hc
  simp [startsWithEq, this]

theorem startsWithPipe_word_head {c : Char} (t : List Char)
    (hc : isWordChar c = true) : startsWithPipe (c :: t) = false := by
  have : c ≠ '|' := fun h => by subst h; exact Bool.false_ne_true hc
  cases t with
  | nil => rfl
  | cons d t' => simp [startsWithPipe, this]

/-- The `=` sign is not whitespace, so `\s*` stops in front of it. -/
theorem dropWhile_ws_eq_cons (w1 rest : List Char) (hw1 : ∀ c ∈ w1, isWs c = true) :
    (w1 ++ '=' :: rest).dropWhile isWs = '=' :: rest := by
  rw [dropWhile_ws_append hw1]
  exact dropWhile_ws_of_head (by intro c hc; simp at hc; subst hc; decide)

theorem takeWhile_ws_append {w x : List Char} (hw : ∀ c ∈ w, isWs c = true) :
    (w ++ x).takeWhile isWs = w ++ x.takeWhile isWs := by
  induction w with
  | nil => rfl
  | cons a w ih =>
    have := hw a (by simp)
    simp only [List.cons_append, List.takeWhile_cons, this, if_pos]
    rw [ih (fun c hc => hw c (by simp [hc]))]

theorem takeWhile_ws_of_head {x : List Char} (hx : ∀ c ∈ x.head?, isWs c = false) :
    x.takeWhile isWs = [] := by
  cases x with
  | nil => rfl
  | cons a x =>
    have := hx a (by simp)
    simp [List.takeWhile_cons, this]

theorem takeWhile_ws_ident_append {v x : List Char} (hv : Ident v) :
    (v ++ x).takeWhile isWs = [] := by
  apply takeWhile_ws_of_head
  intro c hc
  rcases v with _ | ⟨a, v'⟩
  · exact absurd rfl hv.1
  · simp at hc
    subst hc
    exact word_not_ws (hv.2 a (by simp))

theorem site_imp_head {var l : List Char} (h : isAssignSite var l = true) :
    isAssignHead var l = true := by
  unfold isAssignSite at h
  unfold isAssignHead
  rcases hds : dropStart? var (l.dropWhile isWs) with _ | r
  · rw [hds] at h
    exact absurd h (by simp)
  · rw [hds] at h
    have h' : startsWithSingleEq (r.dropWhile isWs) = true := h
    show startsWithEq (r.dropWhile isWs) = true
    rcases hdw : r.dropWhile isWs with _ | ⟨b, t⟩ <;> rw [hdw] at h'
    · exact absurd h' (by simp [startsWithSingleEq])
    · simp only [startsWithSingleEq, Bool.and_eq_true] at h'
      simp [startsWithEq, h'.1]

/-- A line that passes the head test decomposes as whitespace, identifier,
whitespace, `=`, remainder. -/
theorem head_decomp {var : List Char} (hvar : Ident var) {l : List Char}
    (h : isAssignHead var l = true) :
    ∃ w0 w1 rest, l = w0 ++ (var ++ (w1 ++ '=' :: rest)) ∧
      (∀ c ∈ w0, isWs c = true) ∧ (∀ c ∈ w1, isWs c = true) := by
  unfold isAssignHead at h
  rcases hds : dropStart? var (l.dropWhile isWs) with _ | r
  · rw [hds] at h
    exact absurd h (by simp)
  · rw [hds] at h
    have h' : startsWithEq (r.dropWhile isWs) = true := h
    rcases hdw : r.dropWhile isWs with _ | ⟨b, t⟩ <;> rw [hdw] at h'
    · exact absurd h' (by simp [startsWithEq])
    · simp only [startsWithEq, beq_iff_eq] at h'
      subst h'
      refine ⟨l.takeWhile isWs, r.takeWhile isWs, t, ?_, ?_, ?_⟩
      · have h1 : l.dropWhile isWs = var ++ r := dropStart?_eq_some.mp hds
        have h2 : r = r.takeWhile isWs ++ ('=' :: t) := by
          conv_lhs => rw [← List.takeWhile_append_dropWhile (p := isWs) (l := r)]
          rw [hdw]
        conv_lhs => rw [← List.takeWhile_append_dropWhile (p := isWs) (l := l)]
        rw [h1]
        conv_lhs => rw [h2]
      · intro c hc; exact List.mem_takeWhile_imp hc
      · intro c hc; exact List.mem_takeWhile_imp hc

/-- What the assignment-line rewrite does on a line of head shape. -/
theorem renameAssign_shape {var n : List Char} (hvar : Ident var)
    (w0 w1 rest : List Char) (hw0 : ∀ c ∈ w0, isWs c = true)
    (hw1 : ∀ c ∈ w1, isWs c = true) :
    renameAssign var n (w0 ++ (var ++ (w1 ++ '=' :: rest))) =
      w0 ++ (n ++ (w1 ++ '=' :: rest)) := by
  unfold renameAssign
  simp only [dropWhile_ws_append hw0, dropWhile_ws_ident_append hvar,
    dropStart?_self_append, takeWhile_ws_append hw0, takeWhile_ws_ident_append hvar,
    List.append_nil, takeWhile_ws_append hw1,
    takeWhile_ws_of_head (x := '=' :: rest)
      (by intro c hc; simp at hc; subst hc; decide),
    dropWhile_ws_eq_cons _ _ hw1]
  simp

/-- The `{:ok, _}` trailing pattern needs an opening brace, so it never matches a
line whose first non-blank character is a word character. -/
theorem isTrailOk_of_word_head {var l : List Char} {c : Char} {t : List Char}
    (hl : l.dropWhile isWs = c :: t) (hc : isWordChar c = true) :
    isTrailOk var l = false := by
  unfold isTrailOk
  rw [hl]
  have : c ≠ '\x7b' := fun h => by subst h; exact Bool.false_ne_true hc
  simp [this]

/-- None of the three trailing-reference patterns matches a renamed assignment
line. -/
theorem renamed_not_trailing {var n : List Char} (hvar : Ident var) (hn : Ident n)
    (hne : n ≠ var) (w0 w1 rest : List Char) (hw0 : ∀ c ∈ w0, isWs c = true)
    (hw1 : ∀ c ∈ w1, isWs c = true) :
    isTrailingRef var (w0 ++ (n ++ (w1 ++ '=' :: rest))) = false := by
  obtain ⟨a, n', hn'⟩ : ∃ a n', n = a :: n' := by
    rcases n with _ | ⟨a, n'⟩
    · exact absurd rfl hn.1
    · exact ⟨a, n', rfl⟩
  have ha : isWordChar a = true := hn.2 a (by rw [hn']; simp)
  have hdrop : (w0 ++ (n ++ (w1 ++ '=' :: rest))).dropWhile isWs =
      n ++ (w1 ++ '=' :: rest) := by
    rw [dropWhile_ws_append hw0, dropWhile_ws_ident_append hn]
  have hsep : HeadSep (w1 ++ '=' :: rest) :=
    headSep_ws_append hw1 (by intro c hc; simp at hc; subst hc; decide)
  have hbare : isTrailBare var (w0 ++ (n ++ (w1 ++ '=' :: rest))) = false := by
    unfold isTrailBare
    rw [hdrop, dropStart?_word_sep hvar.2 hn.2 hsep]
    rcases hd : dropStart? var n with _ | u
    · rfl
    · have hu : n = var ++ u := dropStart?_eq_some.mp hd
      rcases u with _ | ⟨e, u'⟩
      · exact absurd (by rw [hu]; simp) hne
      · have he : isWordChar e = true := hn.2 e (by rw [hu]; simp)
        simp only [Option.map_some']
        show ((e :: u' ++ (w1 ++ '=' :: rest)).all isWs) = false
        simp [word_not_ws he]
  have hpipe : isTrailPipe var (w0 ++ (n ++ (w1 ++ '=' :: rest))) = false := by
    unfold isTrailPipe
    rw [hdrop, dropStart?_word_sep hvar.2 hn.2 hsep]
    rcases hd : dropStart? var n with _ | u
    · rfl
    · have hu : n = var ++ u := dropStart?_eq_some.mp hd
      rcases u with _ | ⟨e, u'⟩
      · exact absurd (by rw [hu]; simp) hne
      · have he : isWordChar e = true := hn.2 e (by rw [hu]; simp)
        simp only [Option.map_some']
        show startsWithPipe ((e :: u' ++ (w1 ++ '=' :: rest)).dropWhile isWs) = false
        rw [List.cons_append, dropWhile_ws_of_head
          (by intro c hc; simp at hc; subst hc; exact word_not_ws he)]
        exact startsWithPipe_word_head _ he
  have hok : isTrailOk var (w0 ++ (n ++ (w1 ++ '=' :: rest))) = false := by
    refine isTrailOk_of_word_head (c := a) (t := n' ++ (w1 ++ '=' :: rest)) ?_ ha
    rw [hdrop, hn']
    simp
  unfold isTrailingRef
  rw [hbare, hpipe, hok]
  rfl

/-- None of the three trailing-reference patterns matches an assignment-head
line for the same identifier. -/
theorem head_not_trailing {var l : List Char} (hvar : Ident var)
    (h : isAssignHead var l = true) : isTrailingRef var l = false := by
  obtain ⟨w0, w1, rest, rfl, hw0, hw1⟩ := head_decomp hvar h
  obtain ⟨a, v', hv'⟩ : ∃ a v', var = a :: v' := by
    rcases var with _ | ⟨a, v'⟩
    · exact absurd rfl hvar.1
    · exact ⟨a, v', rfl⟩
  have ha : isWordChar a = true := hvar.2 a (by rw [hv']; simp)
  have hdrop : (w0 ++ (var ++ (w1 ++ '=' :: rest))).dropWhile isWs =
      var ++ (w1 ++ '=' :: rest) := by
    rw [dropWhile_ws_append hw0, dropWhile_ws_ident_append hvar]
  have hbare : isTrailBare var (w0 ++ (var ++ (w1 ++ '=' :: rest))) = false := by
    unfold isTrailBare
    rw [hdrop, dropStart?_self_append]
    show ((w1 ++ '=' :: rest).all isWs) = false
    rw [List.all_append, List.all_cons]
    have : isWs '=' = false := by decide
    rw [this]
    simp
  have hpipe : isTrailPipe var (w0 ++ (var ++ (w1 ++ '=' :: rest))) = false := by
    unfold isTrailPipe
    rw [hdrop, dropStart?_self_append]
    show startsWithPipe ((w1 ++ '=' :: rest).dropWhile isWs) = false
    rw [dropWhile_ws_eq_cons _ _ hw1]
    cases rest with
    | nil => rfl
    | cons d t => simp [startsWithPipe]
  have hok : isTrailOk var (w0 ++ (var ++ (w1 ++ '=' :: rest))) = false := by
    refine isTrailOk_of_word_head (c := a) (t := v' ++ (w1 ++ '=' :: rest)) ?_ ha
    rw [hdrop, hv']
    simp
  unfold isTrailingRef
  rw [hbare, hpipe, hok]
  rfl

theorem alt_false_of_headSep {s : List Char} (hs : HeadSep s) (hne : s ≠ []) :
    Alt false (chunks s) := by
  rcases s with _ | ⟨d, s'⟩
  · exact absurd rfl hne
  · have := alt_chunks (d :: s') (by simp)
    simpa [hs d (by simp)] using this

theorem chunks_shape_cons {v s : List Char} (hv : Ident v) (hs : HeadSep s)
    (hsne : s ≠ []) : chunks (v ++ s) = v :: chunks s := by
  have halt : Alt true (v :: chunks s) :=
    Alt.cons _ _ _ hv.1 hv.2 (alt_false_of_headSep hs hsne)
  have := chunks_of_alt halt
  rwa [List.flatten_cons, chunks_flatten] at this

theorem chunks_shape_ws {w0 v s : List Char} (hw0ne : w0 ≠ [])
    (hw0 : ∀ c ∈ w0, isWs c = true) (hv : Ident v) (hs : HeadSep s)
    (hsne : s ≠ []) : chunks (w0 ++ (v ++ s)) = w0 :: v :: chunks s := by
  have halt : Alt false (w0 :: v :: chunks s) :=
    Alt.cons _ _ _ hw0ne (fun c hc => ws_not_word (hw0 c hc))
      (Alt.cons _ _ _ hv.1 hv.2 (alt_false_of_headSep hs hsne))
  have := chunks_of_alt halt
  rwa [List.flatten_cons, List.flatten_cons, chunks_flatten] at this

theorem getD_oob (d : List Char) (L : List (List Char)) (i : Nat)
    (h : L.length ≤ i) : L.getD i d = d := by
  rw [List.getD_eq_getElem?_getD, List.getElem?_eq_none (by simpa using h)]
  rfl

theorem updateRangeF_spec (var cur new : List Char) :
    ∀ (n j : Nat) (L : List (List Char)),
      (updateRangeF var cur new n j L).length = L.length ∧
      (∀ i, (i < j ∨ j + n ≤ i) →
        (updateRangeF var cur new n j L).getD i [] = L.getD i []) ∧
      (∀ i, (updateRangeF var cur new n j L).getD i [] = L.getD i [] ∨
        (isAssignHead var (L.getD i []) = false ∧
          (updateRangeF var cur new n j L).getD i [] = subWord cur new (L.getD i [])))
  | 0, j, L => ⟨rfl, fun i _ => rfl, fun i => Or.inl rfl⟩
  | n + 1, j, L => by
    have hstep : updateRangeF var cur new (n + 1) j L =
        updateRangeF var cur new n (j + 1)
          (if isAssignHead var (L.getD j []) then L
           else L.set j (subWord cur new (L.getD j []))) := rfl
    obtain ⟨ih1, ih2, ih3⟩ := updateRangeF_spec var cur new n (j + 1)
      (if isAssignHead var (L.getD j []) then L
       else L.set j (subWord cur new (L.getD j [])))
    have hlen' : (if isAssignHead var (L.getD j []) then L
        else L.set j (subWord cur new (L.getD j []))).length = L.length := by
      split
      · rfl
      · exact List.length_set ..
    have hgetne : ∀ i, i ≠ j → (if isAssignHead var (L.getD j []) then L
        else L.set j (subWord cur new (L.getD j []))).getD i [] = L.getD i [] := by
      intro i hne
      split
      · rfl
      · exact getD_set_ne [] L j i _ (fun h => hne h.symm)
    have hgetj : (if isAssignHead var (L.getD j []) then L
        else L.set j (subWord cur new (L.getD j []))).getD j [] = L.getD j [] ∨
        (isAssignHead var (L.getD j []) = false ∧
          (if isAssignHead var (L.getD j []) then L
           else L.set j (subWord cur new (L.getD j []))).getD j [] =
            subWord cur new (L.getD j [])) := by
      by_cases hh : isAssignHead var (L.getD j []) = true
      · rw [if_pos hh]; exact Or.inl rfl
      · rw [if_neg hh]
        by_cases hj : j < L.length
        · exact Or.inr ⟨by simpa using hh, getD_set_self [] L j _ hj⟩
        · left
          rw [getD_oob [] _ j (by rw [List.length_set]; omega), getD_oob [] L j (by omega)]
    refine ⟨?_, ?_, ?_⟩
    · rw [hstep, ih1, hlen']
    · intro i hi
      have hij : i ≠ j := by omega
      have hi' : i < j + 1 ∨ (j + 1) + n ≤ i := by omega
      rw [hstep, ih2 i hi', hgetne i hij]
    · intro i
      by_cases hij : i = j
      · subst hij
        have : (updateRangeF var cur new (n + 1) i L).getD i [] =
            (if isAssignHead var (L.getD i []) then L
             else L.set i (subWord cur new (L.getD i []))).getD i [] := by
          rw [hstep]
          exact ih2 i (Or.inl (Nat.lt_succ_self i))
        rw [this]
        exact hgetj
      · rcases ih3 i with hcase | ⟨hhead, hcase⟩
        · left
          rw [hstep, hcase, hgetne i hij]
        · right
          rw [hgetne i hij] at hhead hcase
          exact ⟨hhead, by rw [hstep, hcase]⟩

theorem trailingAux_spec (var fin : List Char) :
    ∀ (n : Nat) (L : List (List Char)),
      ((∀ i, i < n → isTrailingRef var (L.getD i []) = false) ∧
        trailingAux var fin n L = L) ∨
      (∃ j, j < n ∧ isTrailingRef var (L.getD j []) = true ∧
        (∀ i, j < i → i < n → isTrailingRef var (L.getD i []) = false) ∧
        trailingAux var fin n L = L.set j (subWord var fin (L.getD j [])))
  | 0, L => Or.inl ⟨fun i hi => absurd hi (Nat.not_lt_zero i), rfl⟩
  | n + 1, L => by
    by_cases h : isTrailingRef var (L.getD n []) = true
    · right
      refine ⟨n, Nat.lt_succ_self n, h, fun i hi hin => by omega, ?_⟩
      simp only [trailingAux, h, if_pos]
    · rcases trailingAux_spec var fin n L with ⟨hall, heq⟩ | ⟨j, hj, hjt, hafter, heq⟩
      · left
        refine ⟨fun i hi => ?_, ?_⟩
        · rcases Nat.lt_succ_iff_lt_or_eq.mp hi with hi' | hi'
          · exact hall i hi'
          · subst hi'; simpa using h
        · simp only [trailingAux, h]
          exact heq
      · right
        refine ⟨j, by omega, hjt, fun i hji hin => ?_, ?_⟩
        · rcases Nat.lt_succ_iff_lt_or_eq.mp hin with hi' | hi'
          · exact hafter i hji hi'
          · subst hi'; simpa using h
        · simp only [trailingAux, h]
          exact heq

theorem trailingAux_length (var fin : List Char) (n : Nat) (L : List (List Char)) :
    (trailingAux var fin n L).length = L.length := by
  rcases trailingAux_spec var fin n L with ⟨_, heq⟩ | ⟨j, _, _, _, heq⟩
  · rw [heq]
  · rw [heq, List.length_set]

theorem processSites_nil (var : List Char) (reps : List (List Char)) (cur : List Char)
    (L : List (List Char)) : processSites var reps cur [] L = L := by
  cases reps <;> rfl

theorem getD_mem_nat : ∀ (l : List Nat) (k : Nat), k < l.length → l.getD k 0 ∈ l
  | a :: l, 0, _ => by simp
  | a :: l, k + 1, h => by
    show l.getD k 0 ∈ a :: l
    exact List.mem_cons_of_mem a (getD_mem_nat l k (by simpa using h))

theorem processSites_spec (var : List Char) :
    ∀ (reps : List (List Char)) (cur : List Char) (srem : List Nat)
      (L : List (List Char)),
      (∀ x ∈ reps, Ident x ∧ x ≠ var) → Ident cur →
      List.Pairwise (· < ·) srem →
      (∀ i ∈ srem, i < L.length) →
      (processSites var reps cur srem L).length = L.length ∧
      (∀ i, (∀ h ∈ srem.head?, i < h) →
        (processSites var reps cur srem L).getD i [] = L.getD i []) ∧
      (∀ i, i ∈ srem.drop reps.length →
        (processSites var reps cur srem L).getD i [] = L.getD i []) ∧
      (∀ k, k < reps.length → k < srem.length →
        (processSites var reps cur srem L).getD (srem.getD k 0) [] =
          renameAssign var (reps.getD k []) (L.getD (srem.getD k 0) [])) ∧
      (∀ i, (processSites var reps cur srem L).getD i [] = L.getD i [] ∨
        (∃ k, k < reps.length ∧ k < srem.length ∧ srem.getD k 0 = i ∧
          (processSites var reps cur srem L).getD i [] =
            renameAssign var (reps.getD k []) (L.getD i [])) ∨
        (∃ aa bb, Ident aa ∧ Ident bb ∧ bb ≠ var ∧
          (aa = cur ∨ aa ∈ reps) ∧ bb ∈ reps ∧
          isAssignHead var (L.getD i []) = false ∧
          (processSites var reps cur srem L).getD i [] =
            subWord aa bb (L.getD i [])))
  | [], cur, srem, L, _, _, _, _ =>
    ⟨rfl, fun i _ => rfl, fun i _ => rfl,
     fun k hk => absurd hk (by simp), fun i => Or.inl rfl⟩
  | _ :: _, cur, [], L, _, _, _, _ =>
    ⟨rfl, fun i _ => rfl, fun i hi => by simp at hi,
     fun k _ hk => absurd hk (by simp), fun i => Or.inl rfl⟩
  | rep :: reps', cur, li :: rest, L, hreps, hcur, hsort, hbound => by
    have hli : li < L.length := hbound li (by simp)
    have hrep : Ident rep ∧ rep ≠ var := hreps rep (by simp)
    have hreps' : ∀ x ∈ reps', Ident x ∧ x ≠ var :=
      fun x hx => hreps x (List.mem_cons_of_mem _ hx)
    have hlt_rest : ∀ x ∈ rest, li < x := (List.pairwise_cons.mp hsort).1
    have hsort' : List.Pairwise (· < ·) rest := (List.pairwise_cons.mp hsort).2
    rcases rest with _ | ⟨nxt, rest'⟩
    · -- last assignment: range runs to the end of the lines
      have hstep : processSites var (rep :: reps') cur [li] L =
          updateRangeF var cur rep
            ((L.set li (renameAssign var rep (L.getD li []))).length - (li + 1))
            (li + 1) (L.set li (renameAssign var rep (L.getD li []))) := by
        show processSites var reps' rep []
            (updateRangeF var cur rep
              ((L.set li (renameAssign var rep (L.getD li []))).length - (li + 1))
              (li + 1) (L.set li (renameAssign var rep (L.getD li [])))) = _
        exact processSites_nil ..
      obtain ⟨u1, u2, u3⟩ := updateRangeF_spec var cur rep
        ((L.set li (renameAssign var rep (L.getD li []))).length - (li + 1))
        (li + 1) (L.set li (renameAssign var rep (L.getD li [])))
      have hL1li : (L.set li (renameAssign var rep (L.getD li []))).getD li [] =
          renameAssign var rep (L.getD li []) := getD_set_self [] L li _ hli
      have hL1ne : ∀ i, i ≠ li →
          (L.set li (renameAssign var rep (L.getD li []))).getD i [] = L.getD i [] :=
        fun i hi => getD_set_ne [] L li i _ (fun h => hi h.symm)
      refine ⟨?_, ?_, ?_, ?_, ?_⟩
      · rw [hstep, u1, List.length_set]
      · intro i hi
        have hil : i < li := hi li (by simp)
        rw [hstep, u2 i (Or.inl (by omega)), hL1ne i (by omega)]
      · intro i hi
        simp at hi
      · intro k hk hk'
        simp only [List.length_cons, List.length_nil] at hk'
        have hk0 : k = 0 := by omega
        subst hk0
        show (processSites var (rep :: reps') cur [li] L).getD li [] =
          renameAssign var rep (L.getD li [])
        rw [hstep, u2 li (Or.inl (by omega)), hL1li]
      · intro i
        by_cases hil : i = li
        · subst hil
          right; left
          refine ⟨0, by simp, by simp, rfl, ?_⟩
          show (processSites var (rep :: reps') cur [i] L).getD i [] =
            renameAssign var rep (L.getD i [])
          rw [hstep, u2 i (Or.inl (by omega)), hL1li]
        · rcases u3 i with hc | ⟨hh, hc⟩
          · left
            rw [hstep, hc, hL1ne i hil]
          · right; right
            rw [hL1ne i hil] at hh hc
            exact ⟨cur, rep, hcur, hrep.1, hrep.2, Or.inl rfl, by simp, hh,
              by rw [hstep, hc]⟩
    · -- an assignment with a successor: range runs up to the next site
      have hnxt : li < nxt := hlt_rest nxt (by simp)
      have hstep : processSites var (rep :: reps') cur (li :: nxt :: rest') L =
          processSites var reps' rep (nxt :: rest')
            (updateRangeF var cur rep (nxt - (li + 1)) (li + 1)
              (L.set li (renameAssign var rep (L.getD li [])))) := rfl
      obtain ⟨u1, u2, u3⟩ := updateRangeF_spec var cur rep (nxt - (li + 1)) (li + 1)
        (L.set li (renameAssign var rep (L.getD li [])))
      have hL1li : (L.set li (renameAssign var rep (L.getD li []))).getD li [] =
          renameAssign var rep (L.getD li []) := getD_set_self [] L li _ hli
      have hL1ne : ∀ i, i ≠ li →
          (L.set li (renameAssign var rep (L.getD li []))).getD i [] = L.getD i [] :=
        fun i hi => getD_set_ne [] L li i _ (fun h => hi h.symm)
      -- the state handed to the recursive call agrees with L on every index ≥ nxt
      have hL2hi : ∀ i, nxt ≤ i →
          (updateRangeF var cur rep (nxt - (li + 1)) (li + 1)
            (L.set li (renameAssign var rep (L.getD li [])))).getD i [] =
          L.getD i [] := by
        intro i hi
        rw [u2 i (Or.inr (by omega)), hL1ne i (by omega)]
      have hL2lo : ∀ i, i ≤ li →
          (updateRangeF var cur rep (nxt - (li + 1)) (li + 1)
            (L.set li (renameAssign var rep (L.getD li [])))).getD i [] =
          (L.set li (renameAssign var rep (L.getD li []))).getD i [] := by
        intro i hi
        exact u2 i (Or.inl (by omega))
      have hrest_ge : ∀ i ∈ nxt :: rest', nxt ≤ i := by
        intro i hi
        rcases List.mem_cons.mp hi with hi' | hi'
        · omega
        · exact Nat.le_of_lt ((List.pairwise_cons.mp hsort').1 i hi')
      have hrest_eq : ∀ i ∈ nxt :: rest',
          (updateRangeF var cur rep (nxt - (li + 1)) (li + 1)
            (L.set li (renameAssign var rep (L.getD li [])))).getD i [] =
          L.getD i [] := fun i hi => hL2hi i (hrest_ge i hi)
      have hrest_bound : ∀ i ∈ nxt :: rest',
          i < (updateRangeF var cur rep (nxt - (li + 1)) (li + 1)
            (L.set li (renameAssign var rep (L.getD li [])))).length := by
        intro i hi
        rw [u1, List.length_set]
        exact hbound i (List.mem_cons_of_mem _ hi)
      obtain ⟨p1, p2, p3, p4, p5⟩ := processSites_spec var reps' rep (nxt :: rest')
        (updateRangeF var cur rep (nxt - (li + 1)) (li + 1)
          (L.set li (renameAssign var rep (L.getD li []))))
        hreps' hrep.1 hsort' hrest_bound
      refine ⟨?_, ?_, ?_, ?_, ?_⟩
      · rw [hstep, p1, u1, List.length_set]
      · intro i hi
        have hil : i < li := hi li (by simp)
        rw [hstep, p2 i (by intro h hh; simp at hh; omega),
          hL2lo i (by omega), hL1ne i (by omega)]
      · intro i hi
        rw [List.length_cons, List.drop_succ_cons] at hi
        have hmem : i ∈ nxt :: rest' := List.mem_of_mem_drop hi
        rw [hstep, p3 i hi, hrest_eq i hmem]
      · intro k hk hk'
        rcases k with _ | k'
        · show (processSites var (rep :: reps') cur (li :: nxt :: rest') L).getD li [] =
            renameAssign var rep (L.getD li [])
          rw [hstep, p2 li (by intro h hh; simp at hh; omega), hL2lo li (le_refl li), hL1li]
        · show (processSites var (rep :: reps') cur (li :: nxt :: rest') L).getD
              ((nxt :: rest').getD k' 0) [] =
            renameAssign var (reps'.getD k' []) (L.getD ((nxt :: rest').getD k' 0) [])
          have hk1 : k' < reps'.length := by simpa using hk
          have hk2 : k' < (nxt :: rest').length := by simpa using hk'
          have hmem : (nxt :: rest').getD k' 0 ∈ nxt :: rest' := getD_mem_nat _ k' hk2
          rw [hstep, p4 k' hk1 hk2, hrest_eq _ hmem]
      · intro i
        by_cases hil : i = li
        · subst hil
          right; left
          refine ⟨0, by simp, by simp, rfl, ?_⟩
          rw [hstep, p2 i (by intro h hh; simp at hh; omega), hL2lo i (le_refl i), hL1li]
          rfl
        · by_cases hnxti : i < nxt
          · have hout : (processSites var (rep :: reps') cur (li :: nxt :: rest') L).getD i [] =
                (updateRangeF var cur rep (nxt - (li + 1)) (li + 1)
                  (L.set li (renameAssign var rep (L.getD li [])))).getD i [] := by
              rw [hstep, p2 i (by intro h hh; simp at hh; omega)]
            rcases u3 i with hc | ⟨hh, hc⟩
            · left
              rw [hout, hc, hL1ne i hil]
            · right; right
              rw [hL1ne i hil] at hh hc
              exact ⟨cur, rep, hcur, hrep.1, hrep.2, Or.inl rfl, by simp, hh,
                by rw [hout, hc]⟩
          · have hL2i : (updateRangeF var cur rep (nxt - (li + 1)) (li + 1)
                (L.set li (renameAssign var rep (L.getD li [])))).getD i [] =
                L.getD i [] := hL2hi i (by omega)
            rcases p5 i with hc | ⟨k, hk1, hk2, hk3, hc⟩ |
              ⟨aa, bb, haa, hbb, hbv, haprov, hbprov, hh, hc⟩
            · left
              rw [hstep, hc, hL2i]
            · right; left
              refine ⟨k + 1, by simpa using hk1, by simpa using hk2, hk3, ?_⟩
              rw [hstep, hc, hL2i]
              rfl
            · right; right
              rw [hL2i] at hh hc
              have haprov' : aa = cur ∨ aa ∈ rep :: reps' := by
                rcases haprov with h' | h'
                · exact Or.inr (h' ▸ List.mem_cons_self rep reps')
                · exact Or.inr (List.mem_cons_of_mem _ h')
              exact ⟨aa, bb, haa, hbb, hbv, haprov',
                List.mem_cons_of_mem _ hbprov, hh, by rw [hstep, hc]⟩

theorem getD_mem_ll : ∀ (l : List (List Char)) (k : Nat), k < l.length → l.getD k [] ∈ l
  | [], _, h => by simp at h
  | a :: l, 0, _ => by simp
  | a :: l, k + 1, h => by
    show l.getD k [] ∈ a :: l
    exact List.mem_cons_of_mem a (getD_mem_ll l k (by simpa using h))

/-- Gluing a nonempty run of word characters in front of an identifier yields a
longer identifier, distinct from the original. -/
theorem ident_concat {p var : List Char} (hp : p ≠ [])
    (hpw : ∀ c ∈ p, isWordChar c = true) (hvar : Ident var) :
    Ident (p ++ var) ∧ p ++ var ≠ var := by
  refine ⟨⟨by simp [hp], ?_⟩, ?_⟩
  · intro c hc
    rcases List.mem_append.mp hc with h | h
    · exact hpw c h
    · exact hvar.2 c h
  · intro h
    have hlen := congrArg List.length h
    rw [List.length_append] at hlen
    have hp0 : p.length = 0 := by omega
    exact hp (List.length_eq_zero.mp hp0)

/-- Every curated naming strategy consists of six genuine identifiers, each
different from the identifier it replaces. -/
theorem curated_names_sound : ∀ p ∈ curatedStrategies,
    (∀ n ∈ p.2, Ident n ∧ n ≠ p.1) ∧ p.2.length = 6 := by decide

/-- The Naming Strategy Registry always hands back identifiers that differ from
the identifier under repair (curated branch by the table audit, generic branch
because a nonempty qualifier is prefixed). -/
theorem namesFor_sound {var : List Char} (hvar : Ident var) :
    ∀ n ∈ namesFor var, Ident n ∧ n ≠ var := by
  intro n hn
  unfold namesFor at hn
  rcases hf : curatedStrategies.find? (fun p => p.1 = var) with _ | p
  · rw [hf] at hn
    have hn' : n ∈ [s2l "initial_" ++ var, s2l "base_" ++ var, s2l "enhanced_" ++ var,
        s2l "processed_" ++ var, s2l "updated_" ++ var, s2l "final_" ++ var] := hn
    simp only [List.mem_cons, List.not_mem_nil, or_false] at hn'
    rcases hn' with rfl | rfl | rfl | rfl | rfl | rfl
    · exact ident_concat (by decide) (by decide) hvar
    · exact ident_concat (by decide) (by decide) hvar
    · exact ident_concat (by decide) (by decide) hvar
    · exact ident_concat (by decide) (by decide) hvar
    · exact ident_concat (by decide) (by decide) hvar
    · exact ident_concat (by decide) (by decide) hvar
  · rw [hf] at hn
    have hn' : n ∈ p.2 := hn
    have hmem := List.mem_of_find?_eq_some hf
    have hp := List.find?_some hf
    have hp1 : p.1 = var := by simpa using hp
    have hok := (curated_names_sound p hmem).1 n hn'
    exact ⟨hok.1, hp1 ▸ hok.2⟩

/-- Both branches of the registry provide exactly six replacement names. -/
theorem namesFor_len (var : List Char) : (namesFor var).length = 6 := by
  unfold namesFor
  rcases hf : curatedStrategies.find? (fun p => p.1 = var) with _ | p
  · rw [hf]
    rfl
  · rw [hf]
    exact (curated_names_sound p (List.mem_of_find?_eq_some hf)).2

theorem namesFor_ne_nil (var : List Char) : namesFor var ≠ [] := by
  intro h
  have := namesFor_len var
  rw [h] at this
  simp at this

/-- The scanner's early exit: with at most one assignment site the region is
returned untouched. -/
theorem fixFn_of_sites_le_one (lines : List (List Char)) (var : List Char)
    (repls : List (List Char)) (h : (assignmentSites var lines).length ≤ 1) :
    fixFunctionVariable lines var repls = lines := by
  unfold fixFunctionVariable
  simp only [if_pos h]

/-- Renaming the bound identifier of an assignment line does not change the
number of whole-word occurrences of any third identifier on that line. -/
theorem countTok_rename_shape {var n t : List Char} (hvar : Ident var) (hn : Ident n)
    (htv : t ≠ var) (htn : t ≠ n) (w0 w1 rest : List Char)
    (hw0 : ∀ c ∈ w0, isWs c = true) (hw1 : ∀ c ∈ w1, isWs c = true) :
    countTok t (w0 ++ (n ++ (w1 ++ '=' :: rest))) =
      countTok t (w0 ++ (var ++ (w1 ++ '=' :: rest))) := by
  have hsep : HeadSep (w1 ++ '=' :: rest) :=
    headSep_ws_append hw1 (by intro c hc; simp at hc; subst hc; decide)
  have hsne : (w1 ++ '=' :: rest : List Char) ≠ [] := by simp
  have hnt : ¬ (n = t) := fun h => htn h.symm
  have hvt : ¬ (var = t) := fun h => htv h.symm
  unfold countTok
  by_cases hw0e : w0 = []
  · subst hw0e
    simp only [List.nil_append]
    rw [chunks_shape_cons hn hsep hsne, chunks_shape_cons hvar hsep hsne]
    simp [List.filter_cons, hnt, hvt]
  · rw [chunks_shape_ws hw0e hw0 hn hsep hsne, chunks_shape_ws hw0e hw0 hvar hsep hsne]
    simp [List.filter_cons, hnt, hvt]

/-- The trailing-reference pass never changes the number of whole-word
occurrences of any identifier other than the target and its final name. -/
theorem trailing_cnt_status {var fin t : List Char} (hvar : Ident var)
    (hfin : Ident fin) (htv : t ≠ var) (htf : t ≠ fin) (M : List (List Char)) (i : Nat) :
    countTok t ((trailingAux var fin M.length M).getD i []) =
      countTok t (M.getD i []) := by
  rcases trailingAux_spec var fin M.length M with ⟨_, heq⟩ | ⟨j, hj, hjt, _, heq⟩
  · rw [heq]
  · by_cases hij : i = j
    · subst hij
      rw [heq, getD_set_self [] M i _ hj]
      exact countTok_subWord hvar hfin htv htf _
    · rw [heq, getD_set_ne [] M j i _ (fun h => hij h.symm)]

/-- A line that is not a trailing reference is left alone by the trailing pass. -/
theorem trailingAux_getD_of_not_trailing (var fin : List Char) (M : List (List Char))
    {i : Nat} (h : isTrailingRef var (M.getD i []) = false) :
    (trailingAux var fin M.length M).getD i [] = M.getD i [] := by
  rcases trailingAux_spec var fin M.length M with ⟨_, heq⟩ | ⟨j, hj, hjt, _, heq⟩
  · rw [heq]
  · have hij : i ≠ j := by
      intro he
      rw [he, hjt] at h
      simp at h
    rw [heq, getD_set_ne [] M j i _ (fun he => hij he.symm)]

/-- Claim C7: when a region has more assignment sites than the naming strategy
has entries, the rewrite still succeeds: the first `len(namesFor var)` sites
are renamed in order, each to its positional replacement name, and every excess
assignment line is returned byte-for-byte unchanged, original identifier
intact. -/
theorem c7_excess_sites (lines : List (List Char)) (var : List Char) (hvar : Ident var)
    (hmore : (namesFor var).length < (assignmentSites var lines).length) :
    (fixFunctionVariable lines var (namesFor var)).length = lines.length ∧
    (∀ k, k < (namesFor var).length →
      (fixFunctionVariable lines var (namesFor var)).getD
          ((assignmentSites var lines).getD k 0) [] =
        renameAssign var ((namesFor var).getD k [])
          (lines.getD ((assignmentSites var lines).getD k 0) [])) ∧
    (∀ i, i ∈ (assignmentSites var lines).drop (namesFor var).length →
      (fixFunctionVariable lines var (namesFor var)).getD i [] = lines.getD i []) := by
  have h6 := namesFor_len var
  have hnot : ¬ (assignmentSites var lines).length ≤ 1 := by omega
  have hreps := namesFor_sound hvar
  obtain ⟨p1, p2, p3, p4, p5⟩ := processSites_spec var (namesFor var) var
    (assignmentSites var lines) lines hreps hvar
    (assignmentSites_pairwise var lines)
    (fun i hi => (mem_assignmentSites.mp hi).1)
  have hfix : fixFunctionVariable lines var (namesFor var) =
      trailingAux var
        ((namesFor var).getD (min ((assignmentSites var lines).length - 1)
          ((namesFor var).length - 1)) [])
        (processSites var (namesFor var) var (assignmentSites var lines) lines).length
        (processSites var (namesFor var) var (assignmentSites var lines) lines) := by
    unfold fixFunctionVariable
    simp only [if_neg hnot]
  refine ⟨?_, ?_, ?_⟩
  · rw [hfix, trailingAux_length, p1]
  · intro k hk
    have hk2 : k < (assignmentSites var lines).length := by omega
    have hisite : (assignmentSites var lines).getD k 0 ∈ assignmentSites var lines :=
      getD_mem_nat _ k hk2
    have hsi : isAssignSite var
        (lines.getD ((assignmentSites var lines).getD k 0) []) = true :=
      (mem_assignmentSites.mp hisite).2
    have hrew := p4 k hk hk2
    obtain ⟨w0, w1, rest, hdec, hw0, hw1⟩ := head_decomp hvar (site_imp_head hsi)
    have hrepk := hreps _ (getD_mem_ll (namesFor var) k hk)
    have hnt : isTrailingRef var
        ((processSites var (namesFor var) var (assignmentSites var lines) lines).getD
          ((assignmentSites var lines).getD k 0) []) = false := by
      rw [hrew, hdec, renameAssign_shape hvar w0 w1 rest hw0 hw1]
      exact renamed_not_trailing hvar hrepk.1 hrepk.2 w0 w1 rest hw0 hw1
    rw [hfix, trailingAux_getD_of_not_trailing _ _ _ hnt, hrew]
  · intro i hi
    have hii : i ∈ assignmentSites var lines := List.mem_of_mem_drop hi
    have hsi : isAssignSite var (lines.getD i []) = true :=
      (mem_assignmentSites.mp hii).2
    have huntouched := p3 i hi
    have hnt : isTrailingRef var
        ((processSites var (namesFor var) var (assignmentSites var lines) lines).getD
          i []) = false := by
      rw [huntouched]
      exact head_not_trailing hvar (site_imp_head hsi)
    rw [hfix, trailingAux_getD_of_not_trailing _ _ _ hnt, huntouched]

/-- A region with seven assignments to `v`: one more than the six names the
registry provides. -/
def c7Lines : List (List Char) :=
  [s2l "v = 1", s2l "v = 2", s2l "v = 3", s2l "v = 4",
   s2l "v = 5", s2l "v = 6", s2l "v = 7"]

/-- Witness for C7: seven sites against six names — the first six are renamed
positionally and the seventh assignment line survives unchanged. -/
theorem c7_excess_sites_witness :
    (namesFor (s2l "v")).length < (assignmentSites (s2l "v") c7Lines).length ∧
    ((fixFunctionVariable c7Lines (s2l "v") (namesFor (s2l "v"))).length =
        c7Lines.length ∧
      (∀ k, k < (namesFor (s2l "v")).length →
        (fixFunctionVariable c7Lines (s2l "v") (namesFor (s2l "v"))).getD
            ((assignmentSites (s2l "v") c7Lines).getD k 0) [] =
          renameAssign (s2l "v") ((namesFor (s2l "v")).getD k [])
            (c7Lines.getD ((assignmentSites (s2l "v") c7Lines).getD k 0) [])) ∧
      (∀ i, i ∈ (assignmentSites (s2l "v") c7Lines).drop (namesFor (s2l "v")).length →
        (fixFunctionVariable c7Lines (s2l "v") (namesFor (s2l "v"))).getD i [] =
          c7Lines.getD i [])) :=
  ⟨by decide, c7_excess_sites c7Lines (s2l "v") (by decide) (by decide)⟩

/-- Claim C3 (amended): when the Live-Range Rewriter actually runs (at least two
sites), its trailing-reference step scans the whole region backward from the
end — not only the lines strictly below the last assignment site — rewrites at
most the single last line matching one of the three trailing patterns
(replacing whole-word occurrences of the identifier by the final chosen name),
and leaves every other line of the loop's output untouched. -/
theorem c3_amended (lines : List (List Char)) (var : List Char) (hvar : Ident var)
    (hge2 : 2 ≤ (assignmentSites var lines).length) :
    ((∀ i, i < lines.length →
        isTrailingRef var ((processSites var (namesFor var) var
          (assignmentSites var lines) lines).getD i []) = false) ∧
      fixFunctionVariable lines var (namesFor var) =
        processSites var (namesFor var) var (assignmentSites var lines) lines) ∨
    (∃ j, j < lines.length ∧
      isTrailingRef var ((processSites var (namesFor var) var
        (assignmentSites var lines) lines).getD j []) = true ∧
      (∀ i, j < i → i < lines.length →
        isTrailingRef var ((processSites var (namesFor var) var
          (assignmentSites var lines) lines).getD i []) = false) ∧
      fixFunctionVariable lines var (namesFor var) =
        (processSites var (namesFor var) var (assignmentSites var lines) lines).set j
          (subWord var
            ((namesFor var).getD (min ((assignmentSites var lines).length - 1)
              ((namesFor var).length - 1)) [])
            ((processSites var (namesFor var) var
              (assignmentSites var lines) lines).getD j []))) := by
  have hnot : ¬ (assignmentSites var lines).length ≤ 1 := by omega
  have hps_len : (processSites var (namesFor var) var
      (assignmentSites var lines) lines).length = lines.length :=
    (processSites_spec var (namesFor var) var (assignmentSites var lines) lines
      (namesFor_sound hvar) hvar (assignmentSites_pairwise var lines)
      (fun i hi => (mem_assignmentSites.mp hi).1)).1
  have hfix : fixFunctionVariable lines var (namesFor var) =
      trailingAux var
        ((namesFor var).getD (min ((assignmentSites var lines).length - 1)
          ((namesFor var).length - 1)) [])
        (processSites var (namesFor var) var (assignmentSites var lines) lines).length
        (processSites var (namesFor var) var (assignmentSites var lines) lines) := by
    unfold fixFunctionVariable
    simp only [if_neg hnot]
  rcases trailingAux_spec var
      ((namesFor var).getD (min ((assignmentSites var lines).length - 1)
        ((namesFor var).length - 1)) [])
      (processSites var (namesFor var) var (assignmentSites var lines) lines).length
      (processSites var (namesFor var) var (assignmentSites var lines) lines) with
    ⟨hall, heq⟩ | ⟨j, hj, hjt, haft, heq⟩
  · left
    refine ⟨fun i hi => hall i ?_, by rw [hfix, heq]⟩
    rw [hps_len]
    exact hi
  · right
    refine ⟨j, ?_, hjt, fun i hji hi => haft i hji ?_, by rw [hfix, heq]⟩
    · rw [← hps_len]
      exact hj
    · rw [hps_len]
      exact hi

/-- A two-assignment region ending in a bare trailing reference. -/
def c3WLines : List (List Char) := [s2l "v = 1", s2l "v = 2", s2l "v"]

/-- Witness for the amended C3: on a concrete region the trailing step rewrites
exactly the backward-first trailing-reference line of the loop output. -/
theorem c3_amended_witness :
    ((∀ i, i < c3WLines.length →
        isTrailingRef (s2l "v") ((processSites (s2l "v") (namesFor (s2l "v")) (s2l "v")
          (assignmentSites (s2l "v") c3WLines) c3WLines).getD i []) = false) ∧
      fixFunctionVariable c3WLines (s2l "v") (namesFor (s2l "v")) =
        processSites (s2l "v") (namesFor (s2l "v")) (s2l "v")
          (assignmentSites (s2l "v") c3WLines) c3WLines) ∨
    (∃ j, j < c3WLines.length ∧
      isTrailingRef (s2l "v") ((processSites (s2l "v") (namesFor (s2l "v")) (s2l "v")
        (assignmentSites (s2l "v") c3WLines) c3WLines).getD j []) = true ∧
      (∀ i, j < i → i < c3WLines.length →
        isTrailingRef (s2l "v") ((processSites (s2l "v") (namesFor (s2l "v")) (s2l "v")
          (assignmentSites (s2l "v") c3WLines) c3WLines).getD i []) = false) ∧
      fixFunctionVariable c3WLines (s2l "v") (namesFor (s2l "v")) =
        (processSites (s2l "v") (namesFor (s2l "v")) (s2l "v")
          (assignmentSites (s2l "v") c3WLines) c3WLines).set j
          (subWord (s2l "v")
            ((namesFor (s2l "v")).getD
              (min ((assignmentSites (s2l "v") c3WLines).length - 1)
                ((namesFor (s2l "v")).length - 1)) [])
            ((processSites (s2l "v") (namesFor (s2l "v")) (s2l "v")
              (assignmentSites (s2l "v") c3WLines) c3WLines).getD j []))) :=
  c3_amended c3WLines (s2l "v") (by decide) (by decide)

/-- Claim C6 (amended): whole-word discipline — rewriting one identifier never
changes any whole-word occurrence of a distinct identifier (in particular when
one is a proper substring of the other), provided the other identifier is not
itself one of the replacement names the registry supplies for the target.
(Without that proviso the claim is false: a replacement name such as
`initial_risk` can collide with an identifier already present in the region,
see the counterexample.) -/
theorem c6_amended (lines : List (List Char)) (var other : List Char)
    (hvar : Ident var) (hother : Ident other) (hne : other ≠ var)
    (hsub : (∃ p s, p ++ (var ++ s) = other ∧ (p ≠ [] ∨ s ≠ [])) ∨
      (∃ p s, p ++ (other ++ s) = var ∧ (p ≠ [] ∨ s ≠ [])))
    (hnocl : other ∉ namesFor var) :
    (fixFunctionVariable lines var (namesFor var)).map (countTok other) =
      lines.map (countTok other) := by
  by_cases hge2 : 2 ≤ (assignmentSites var lines).length
  · have hnot : ¬ (assignmentSites var lines).length ≤ 1 := by omega
    have hreps := namesFor_sound hvar
    obtain ⟨p1, p2, p3, p4, p5⟩ := processSites_spec var (namesFor var) var
      (assignmentSites var lines) lines hreps hvar
      (assignmentSites_pairwise var lines)
      (fun i hi => (mem_assignmentSites.mp hi).1)
    have hfix : fixFunctionVariable lines var (namesFor var) =
        trailingAux var
          ((namesFor var).getD (min ((assignmentSites var lines).length - 1)
            ((namesFor var).length - 1)) [])
          (processSites var (namesFor var) var (assignmentSites var lines) lines).length
          (processSites var (namesFor var) var (assignmentSites var lines) lines) := by
      unfold fixFunctionVariable
      simp only [if_neg hnot]
    have hfinmem : (namesFor var).getD (min ((assignmentSites var lines).length - 1)
        ((namesFor var).length - 1)) [] ∈ namesFor var := by
      apply getD_mem_ll
      have h0 : 0 < (namesFor var).length := List.length_pos.mpr (namesFor_ne_nil var)
      omega
    have hfin := hreps _ hfinmem
    have hof : other ≠ (namesFor var).getD (min ((assignmentSites var lines).length - 1)
        ((namesFor var).length - 1)) [] := fun h => hnocl (h ▸ hfinmem)
    have hps_cnt : ∀ i, countTok other ((processSites var (namesFor var) var
        (assignmentSites var lines) lines).getD i []) =
        countTok other (lines.getD i []) := by
      intro i
      rcases p5 i with hc | ⟨k, hk1, hk2, hk3, hc⟩ |
        ⟨aa, bb, haa, hbb, hbv, haprov, hbprov, hh, hc⟩
      · rw [hc]
      · have hisite : i ∈ assignmentSites var lines := hk3 ▸ getD_mem_nat _ k hk2
        have hsi : isAssignSite var (lines.getD i []) = true :=
          (mem_assignmentSites.mp hisite).2
        obtain ⟨w0, w1, rest, hdec, hw0, hw1⟩ := head_decomp hvar (site_imp_head hsi)
        have hrepk := hreps _ (getD_mem_ll (namesFor var) k hk1)
        have hok : other ≠ (namesFor var).getD k [] :=
          fun h => hnocl (h ▸ getD_mem_ll (namesFor var) k hk1)
        rw [hc, hdec, renameAssign_shape hvar w0 w1 rest hw0 hw1]
        exact countTok_rename_shape hvar hrepk.1 hne hok w0 w1 rest hw0 hw1
      · have hoa : other ≠ aa := by
          rcases haprov with rfl | hmem'
          · exact hne
          · exact fun h => hnocl (h ▸ hmem')
        have hob : other ≠ bb := fun h => hnocl (h ▸ hbprov)
        rw [hc]
        exact countTok_subWord haa hbb hoa hob _
    have hout_cnt : ∀ i, countTok other
        ((fixFunctionVariable lines var (namesFor var)).getD i []) =
        countTok other (lines.getD i []) := by
      intro i
      rw [hfix, trailing_cnt_status hvar hfin.1 hne hof _ i, hps_cnt i]
    have hout_len : (fixFunctionVariable lines var (namesFor var)).length =
        lines.length := by
      rw [hfix, trailingAux_length, p1]
    apply List.ext_getElem
    · simp [hout_len]
    · intro n h1 h2
      simp only [List.getElem_map]
      have hn1 : n < (fixFunctionVariable lines var (namesFor var)).length := by
        simpa using h1
      have hn2 : n < lines.length := by simpa using h2
      have hcnt := hout_cnt n
      rw [List.getD_eq_getElem?_getD, List.getElem?_eq_getElem hn1, Option.getD_some,
        List.getD_eq_getElem?_getD, List.getElem?_eq_getElem hn2, Option.getD_some] at hcnt
      exact hcnt
  · rw [fixFn_of_sites_le_one lines var (namesFor var) (by omega)]

/-- A region assigning `risk` three times while also using the longer
identifier `risk_factors`. -/
def c6WLines : List (List Char) :=
  [s2l "risk = 1", s2l "risk = risk_factors", s2l "risk = 2", s2l "risk_factors"]

/-- Witness for the amended C6: rewriting `risk` leaves every whole-word
occurrence of `risk_factors` in place (per-line occurrence counts unchanged). -/
theorem c6_amended_witness :
    (fixFunctionVariable c6WLines (s2l "risk") (namesFor (s2l "risk"))).map
        (countTok (s2l "risk_factors")) =
      c6WLines.map (countTok (s2l "risk_factors")) :=
  c6_amended c6WLines (s2l "risk") (s2l "risk_factors") (by decide) (by decide)
    (by decide) (Or.inl ⟨[], s2l "_factors", by decide, Or.inr (by decide)⟩)
    (by decide)
